import Mathlib

/-!
# librapid: strided array views over a dense owner array

A shallow embedding of `librapid/array/arrayView.hpp` (`ArrayView<T>`): the
constructor, `operator[]`, `scalar` and `eval`, followed by the properties
proved about them.

Conventions of the embedding

* `int64_t` values (indices, offsets, lengths, strides) are `Int`; the
  arithmetic is exact, i.e. the statements are about inputs whose products and
  sums stay inside the 64-bit range.
* Loop counters that the loop structure keeps non-negative (`i`, `idim`,
  `adim`) are `Nat`.
* C++ `/` and `%` on `int64_t` truncate towards zero: `Int.tdiv`, `Int.tmod`.
* The collaborators that `arrayView.hpp` only uses (the shape and stride
  types, the owner array type, the assertion) are modelled from the
  specification; each such definition says so.
-/

namespace librapid

/-! ## Collaborators of the view -/

/-- Modelled from the spec: the shape type `ShapeType` (an Extent), "ordered
sequence of per-axis lengths describing a tensor's dimensionality". Its class
is not among the sources; a shape is the list of its axis lengths, axis 0
first. -/
abbrev Shape := List Int

/-- Modelled from the spec: the stride type `StrideType`, "per-axis element
count to advance in flat storage to move one step along that axis"; like the
shape it is an Extent, here the list of its entries. -/
abbrev Stride := List Int

/-- Modelled from the spec: `ShapeType::ndim()`, the active rank. -/
def Shape.ndim (s : Shape) : Nat := s.length

/-- Modelled from the spec: `ShapeType::zeros(n)`, the rank-`n` coordinate
vector with every entry 0 (used for `tmp` in `scalar` and `coord` in `eval`). -/
def Shape.zeros (n : Nat) : Shape := List.replicate n 0

/-- Modelled from the spec: `subshape(start, end)`, the axes
`start, ..., end - 1` of a shape or stride ("the current shape with axis 0
removed" for `subshape(1, ndim())`). -/
def Shape.subshape (s : Shape) (start stop : Nat) : Shape :=
  (s.drop start).take (stop - start)

/-- Modelled from the spec: `Stride(shape)`, the Stride-from-Shape derivation
that `operator[]` applies to the view's shape: the "row-major stride" of an
axis is the product of the lengths of the axes after it (1 for the last). -/
def Stride.ofShape : Shape → Stride
  | [] => []
  | _ :: ds => ds.prod :: Stride.ofShape ds

/-- Modelled from the spec: `Stride({1})`, "a single unit-stride axis". -/
def Stride.unit : Stride := [1]

/-- Modelled from the spec: the construction of a `StrideType` from a shape
value in the member initialiser `m_stride(array.shape())`. `StrideType` is
declared by the owner array type, which is not among the sources; it is the
type that `setStride(const StrideType &)` takes in `operator[]`, where the
stride handed over is built by `Stride(m_shape)`, so the initialiser is the
same Stride-from-Shape construction. Spec, lifecycle of the view:
"constructed from an existing array (capturing its shape and a row-major
stride computed from that shape)". -/
def StrideType.ofShapeValue (shape : Shape) : Stride := Stride.ofShape shape

/-- Modelled from the spec: the owning dense array type `ArrayType`, known
only through `shape()`, `scalar(flatIndex)`, `storage()` and construction
from a shape. The linear backing memory is a map from flat positions to
elements; the live positions of a dense array are `0 ≤ k < shape.prod`. -/
structure ArrayType (α : Type) where
  /-- The result of `shape()`. -/
  shape : Shape
  /-- The result of `storage()`, read at a flat position. -/
  storage : Int → α

/-- Modelled from the spec: `ArrayType::scalar(flatIndex)`, "element access
at a flat storage position". -/
def ArrayType.scalar {α : Type} (A : ArrayType α) (index : Int) : α :=
  A.storage index

/-- Modelled from the spec: `ArrayType(shape)`, "allocates a new dense array
of that shape"; the fresh storage holds the default element. -/
def ArrayType.ofShape {α : Type} [Inhabited α] (shape : Shape) : ArrayType α :=
  { shape := shape, storage := fun _ => default }

/-- Modelled from the spec: the write `storage()[d] = x` into the linear
backing memory. -/
def ArrayType.storageSet {α : Type} (A : ArrayType α) (d : Int) (x : α) :
    ArrayType α :=
  { A with storage := fun k => if k = d then x else A.storage k }

/-- A dense array holding the elements of a list in row-major order; the
positions outside the list hold `dflt`. -/
def ArrayType.ofList {α : Type} (shape : Shape) (elems : List α) (dflt : α) :
    ArrayType α :=
  { shape := shape
    storage := fun k => if 0 ≤ k then elems.getD k.toNat dflt else dflt }

/-- The first `n` elements of the linear storage. -/
def ArrayType.toList {α : Type} (A : ArrayType α) (n : Nat) : List α :=
  (List.range n).map (fun k => A.storage (k : Int))

/-- Modelled from the spec: the failure raised by `LIBRAPID_ASSERT` in
`operator[]`, "an IndexOutOfRange error reporting the offending index and the
leading dimension size". -/
inductive ViewError where
  | indexOutOfRange (index : Int) (leadingDimension : Int)
  deriving DecidableEq, Repr

/-! ## The view -/

/-- The private members of `ArrayView<T>`. -/
structure ArrayView (α : Type) where
  /-- The owner array (`ConstReference m_ref`). -/
  m_ref : ArrayType α
  m_shape : Shape
  m_stride : Stride
  m_offset : Int := 0

namespace ArrayView

variable {α : Type}

/-- `ArrayView(const ArrayType &array)`:
`m_ref(array), m_shape(array.shape()), m_stride(array.shape())`, and
`m_offset` keeps its default member initialiser 0. -/
def ofArray (array : ArrayType α) : ArrayView α :=
  { m_ref := array
    m_shape := array.shape
    m_stride := StrideType.ofShapeValue array.shape
    m_offset := 0 }

/-- `shape()`. -/
def shape (V : ArrayView α) : Shape := V.m_shape

/-- `stride()`. -/
def stride (V : ArrayView α) : Stride := V.m_stride

/-- `offset()`. -/
def offset (V : ArrayView α) : Int := V.m_offset

/-- `setShape`. -/
def setShape (V : ArrayView α) (shape : Shape) : ArrayView α :=
  { V with m_shape := shape }

/-- `setStride`. -/
def setStride (V : ArrayView α) (stride : Stride) : ArrayView α :=
  { V with m_stride := stride }

/-- `setOffset`. -/
def setOffset (V : ArrayView α) (offset : Int) : ArrayView α :=
  { V with m_offset := offset }

/-- `ndim()`: `return m_shape.ndim();`. -/
def ndim (V : ArrayView α) : Nat := Shape.ndim V.m_shape

/-- `operator[](int64_t index)`. The assertion
`index >= 0 && index < m_shape[0]` fails with the index and the leading
dimension; `m_shape[0]` of a rank-0 shape reads 0. -/
def operatorIndex (V : ArrayView α) (index : Int) :
    Except ViewError (ArrayView α) :=
  if index ≥ 0 ∧ index < V.m_shape.getD 0 0 then
    let view := ofArray V.m_ref
    let stride := Stride.ofShape V.m_shape
    let view := view.setShape (Shape.subshape V.m_shape 1 V.ndim)
    let view :=
      if V.ndim = 1 then view.setStride Stride.unit
      else view.setStride (Shape.subshape stride 1 V.ndim)
    let view := view.setOffset (V.m_offset + index * stride.getD 0 0)
    Except.ok view
  else
    Except.error (ViewError.indexOutOfRange index (V.m_shape.getD 0 0))

/-- The loop `for (i = ndim() - 2; i >= 0; --i)` of `scalar`, entered with
`i + 1` iterations left: `index /= m_shape[i + 1]; tmp[i] = index % m_shape[i]`. -/
def scalarUnravel (m_shape : Shape) : Nat → Int → Shape → Int × Shape
  | 0, index, tmp => (index, tmp)
  | i + 1, index, tmp =>
    let index := index.tdiv (m_shape.getD (i + 1) 0)
    scalarUnravel m_shape i index (tmp.set i (index.tmod (m_shape.getD i 0)))

/-- The loop `for (i = 0; i < ndim(); ++i) offset += tmp[i] * m_stride[i]`. -/
def scalarOffset (m_stride : Stride) (tmp : Shape) (ndim : Nat) : Int :=
  (List.range ndim).foldl
    (fun offset i => offset + tmp.getD i 0 * m_stride.getD i 0) 0

/-- The coordinate vector `tmp` that `scalar(index)` computes for a view of
rank at least 1. -/
def scalarCoord (V : ArrayView α) (index : Int) : Shape :=
  let tmp := Shape.zeros V.ndim
  let tmp := tmp.set (V.ndim - 1) (index.tmod (V.m_shape.getD (V.ndim - 1) 0))
  (scalarUnravel V.m_shape (V.ndim - 1) index tmp).2

/-- `scalar(int64_t index)`. -/
def scalar (V : ArrayView α) (index : Int) : α :=
  if V.ndim = 0 then V.m_ref.scalar V.m_offset
  else
    let tmp := scalarCoord V index
    let offset := scalarOffset V.m_stride tmp V.ndim
    V.m_ref.scalar (V.m_offset + offset)

/-- The local variables of `eval()`. -/
structure EvalState (α : Type) where
  res : ArrayType α
  coord : Shape
  d : Int
  p : Int
  idim : Nat

/-- The loop `for (idim = 0; idim < ndim; ++idim)` of `eval`, entered with
`rem = ndim - idim` iterations left. It returns `idim`, `coord` and `p` as
they are when the loop is left, by `break` or because `idim` reached `ndim`. -/
def evalCarry (m_shape : Shape) (m_stride : Stride) (ndim : Nat) :
    Nat → Shape → Int → Nat × Shape × Int
  | 0, coord, p => (ndim, coord, p)
  | rem + 1, coord, p =>
    let idim := ndim - (rem + 1)
    let adim := ndim - idim - 1
    let c := coord.getD adim 0 + 1
    if c = m_shape.getD adim 0 then
      evalCarry m_shape m_stride ndim rem (coord.set adim 0)
        (p - (m_shape.getD adim 0 - 1) * m_stride.getD adim 0)
    else
      (idim, coord.set adim c, p + m_stride.getD adim 0)

/-- One execution of the body of the `do { ... } while (idim < ndim)` loop. -/
def evalBody (V : ArrayView α) (st : EvalState α) : EvalState α :=
  let res := st.res.storageSet st.d (V.m_ref.scalar (st.p + V.m_offset))
  let out := evalCarry V.m_shape V.m_stride V.ndim V.ndim st.coord st.p
  { res := res, coord := out.2.1, d := st.d + 1, p := out.2.2, idim := out.1 }

/-- The `do { ... } while (idim < ndim)` loop, with at most `fuel` executions
of the body; `none` when the loop has not been left by then. -/
def evalLoop (V : ArrayView α) : Nat → EvalState α → Option (EvalState α)
  | 0, _ => none
  | fuel + 1, st =>
    let st := evalBody V st
    if st.idim < V.ndim then evalLoop V fuel st else some st

/-- The state in which `eval()` enters its loop. -/
def evalInit [Inhabited α] (V : ArrayView α) : EvalState α :=
  { res := ArrayType.ofShape V.m_shape
    coord := Shape.zeros V.ndim
    d := 0
    p := 0
    idim := 0 }

/-- `eval()`, with at most `fuel` executions of the loop body. -/
def eval [Inhabited α] (V : ArrayView α) (fuel : Nat) : Option (ArrayType α) :=
  (evalLoop V fuel (evalInit V)).map (fun st => st.res)

end ArrayView

end librapid

namespace librapid

/-! ## Vocabulary of the statements -/

/-- The multi-index `c` is valid for the shape `s`: one coordinate per axis
and `0 ≤ c_i < s_i` on every axis. -/
def Shape.validCoord (s c : Shape) : Prop :=
  c.length = s.length ∧
    ∀ i, i < s.length → 0 ≤ c.getD i 0 ∧ c.getD i 0 < s.getD i 0

instance (s c : Shape) : Decidable (Shape.validCoord s c) := by
  unfold Shape.validCoord; infer_instance

/-- The row-major position of the multi-index `c` under the shape `s`:
`sum_i c_i * prod_{j>i} s_j`. -/
def Shape.rowMajorPosition (s c : Shape) : Int :=
  ∑ i ∈ Finset.range s.length, c.getD i 0 * (s.drop (i + 1)).prod

/-- The strided position of the multi-index `c`: `sum_{i<n} c_i * t_i`. -/
def Stride.dot (c : Shape) (t : Stride) (n : Nat) : Int :=
  ∑ i ∈ Finset.range n, c.getD i 0 * t.getD i 0

end librapid

namespace librapid

/-- The views that can be obtained from the full view of the array `A` by
zero or more successful `operator[]` calls. -/
inductive ArrayView.Reachable {α : Type} (A : ArrayType α) : ArrayView α → Prop
  | full : ArrayView.Reachable A (ArrayView.ofArray A)
  | index (V W : ArrayView α) (i : Int) :
      ArrayView.Reachable A V → V.operatorIndex i = Except.ok W →
      ArrayView.Reachable A W

/-- The view that a successful `operator[](index)` call on `V` returns. -/
def ArrayView.derived {α : Type} (V : ArrayView α) (index : Int) : ArrayView α :=
  { m_ref := V.m_ref
    m_shape := Shape.subshape V.m_shape 1 V.ndim
    m_stride :=
      if V.ndim = 1 then Stride.unit
      else Shape.subshape (Stride.ofShape V.m_shape) 1 V.ndim
    m_offset := V.m_offset + index * (Stride.ofShape V.m_shape).getD 0 0 }

/-- The 2 x 3 array `[[1, 2, 3], [4, 5, 6]]`, stored row-major. -/
def exampleArray : ArrayType Int :=
  ArrayType.ofList [2, 3] [1, 2, 3, 4, 5, 6] 0

/-- A view over `exampleArray` with an arbitrary stride and offset. -/
def exampleView : ArrayView Int :=
  { m_ref := exampleArray, m_shape := [2, 2], m_stride := [3, 1], m_offset := 1 }

end librapid

namespace librapid

/-- The 1-dimensional array `[7, 8, 9]`. -/
def exampleVector : ArrayType Int :=
  ArrayType.ofList [3] [7, 8, 9] 0

end librapid

namespace librapid

/-- The 2 x 3 x 4 array holding 0, 1, ..., 23 in row-major order. -/
def exampleCube : ArrayType Int :=
  ArrayType.ofList [2, 3, 4] ((List.range 24).map (fun k => (k : Int))) 0

end librapid

namespace librapid

/-- Every read of the view `V` addresses a live element of the owner `A`:
the offset is not negative and the strided position of every valid
multi-index lies in `[0, prod A.shape)`. -/
def ArrayView.InsideOwner {α : Type} (A : ArrayType α) (V : ArrayView α) : Prop :=
  0 ≤ V.offset ∧
    ∀ c, Shape.validCoord V.shape c →
      0 ≤ V.offset + Stride.dot c V.stride V.ndim ∧
        V.offset + Stride.dot c V.stride V.ndim < A.shape.prod

end librapid

/-!
# ndarray: the extent descriptor

A shallow embedding of `librapid/ndarray/basic_extent.hpp`
(`basic_extent<T>`, with `extent = basic_extent<nd_int>`) and of the
constants of `librapid/ndarray/config.hpp`.

Conventions of the embedding

* An integral type is given by its signedness and width; a value converted
  to it is reduced modulo `2 ^ bits` (`IntegralType.convert`). Values of
  `nd_int` parameters (`index`, `n`, `dims`) are `Nat`.
* The two stores `T m_extent[ND_MAX_DIMS]{}` and `T m_extent_alt[ND_MAX_DIMS]{}`
  are maps from positions to values, 0 everywhere at first; the positions
  `0, ..., ND_MAX_DIMS - 1` are the array, and every statement is about
  positions inside it.
* A constructor that throws yields `Except.error`.
-/

namespace ndarray

/-- `ND_MAX_DIMS` of `config.hpp`. -/
def ND_MAX_DIMS : Nat := 50

/-- An integral type of C++: its signedness and its width in bits. -/
structure IntegralType where
  isSigned : Bool
  bits : Nat
  /-- Every integral type considered has at least two bits. -/
  two_le_bits : 2 ≤ bits

/-- The number of values of an integral type, `2 ^ bits`. -/
def IntegralType.modulus (T : IntegralType) : Int := ((2 ^ T.bits : Nat) : Int)

/-- The value that results from converting the integer `x` to the integral
type `T` (an assignment such as `m_extent[i] = vals[i]`): `x` modulo
`2 ^ bits`, taken in `[0, 2 ^ bits)` for an unsigned type and in
`[-2 ^ (bits - 1), 2 ^ (bits - 1))` for a signed one. -/
def IntegralType.convert (T : IntegralType) (x : Int) : Int :=
  if T.isSigned then (x + T.modulus / 2) % T.modulus - T.modulus / 2
  else x % T.modulus

/-- The integer `x` is a value of the integral type `T`. -/
def IntegralType.represents (T : IntegralType) (x : Int) : Prop :=
  T.convert x = x

instance (T : IntegralType) (x : Int) : Decidable (T.represents x) := by
  unfold IntegralType.represents; infer_instance

/-- `using nd_int = unsigned long long;` of `config.hpp`. -/
def nd_int : IntegralType :=
  { isSigned := false, bits := 64, two_le_bits := by decide }

/-- The type `long long`, a signed element type of the same width. -/
def long_long : IntegralType :=
  { isSigned := true, bits := 64, two_le_bits := by decide }

/-- A fixed-capacity store `T m[ND_MAX_DIMS]`, read by position. -/
abbrev Store := Nat → Int

/-- The value-initialised store `m[ND_MAX_DIMS]{}`. -/
def Store.zero : Store := fun _ => 0

/-- The assignment `m[i] = v`. -/
def Store.write (m : Store) (i : Nat) (v : Int) : Store :=
  fun k => if k = i then v else m k

/-- The call `memcpy(dst, src, sizeof(T) * n)` on two stores of the same
element type: the first `n` values of `dst` become those of `src`. -/
def Store.memcpy (dst src : Store) (n : Nat) : Store :=
  fun k => if k < n then src k else dst k

/-- Modelled from the spec: `math::anyBelow(vals, n, bound)`, declared in
`librapid/ndarray/utils.hpp`, which is not among the sources: "if any length
< 1" holds for one of the first `n` stored values. -/
def math.anyBelow (vals : Store) (n : Nat) (bound : Int) : Bool :=
  (List.range n).any (fun i => decide (vals i < bound))

/-- Modelled from the spec: `math::product(vals, n)`, declared in
`librapid/ndarray/utils.hpp`, which is not among the sources: "the product of
lengths", the product of the first `n` stored values as an exact integer. -/
def math.product (vals : Store) (n : Nat) : Int :=
  ((List.range n).map vals).prod

/-- Modelled from the spec: `utils::check_ptr_match(a, n, b, m)`, declared in
`librapid/ndarray/utils.hpp`, which is not among the sources: "true iff rank
and all per-axis lengths match exactly". -/
def utils.check_ptr_match (a : Store) (n : Nat) (b : Store) (m : Nat) : Bool :=
  decide (n = m) && (List.range n).all (fun i => decide (a i = b i))

/-- The exceptions thrown by `basic_extent`: `std::domain_error` and
`std::out_of_range` (whose message names the index and the number of
dimensions). -/
inductive ExtentError where
  | domain_error
  | out_of_range (index : Nat) (dims : Nat)
  deriving DecidableEq, Repr

/-- The private members of `basic_extent<T>`, with their default member
initialisers. -/
structure basic_extent (T : IntegralType) where
  m_extent : Store := Store.zero
  m_extent_alt : Store := Store.zero
  m_dims : Nat := 0

namespace basic_extent

variable {T : IntegralType}

/-- The loop shared by the constructors,
`for (nd_int i = 0; i < m_dims; i++) { m_extent[i] = src(i); m_extent_alt[i] = srcAlt(i); }`;
each assignment converts the value to `T`. -/
def storeLoop (T : IntegralType) (src srcAlt : Nat → Int) (m_dims : Nat)
    (m_extent m_extent_alt : Store) : Store × Store :=
  (List.range m_dims).foldl
    (fun st i =>
      (Store.write st.1 i (T.convert (src i)), Store.write st.2 i (T.convert (srcAlt i))))
    (m_extent, m_extent_alt)

/-- `basic_extent(const std::vector<V> &vals)`; the elements of `vals` are
the integers held by the vector, of whatever integral type `V`. -/
def ofVector (T : IntegralType) (vals : List Int) : Except ExtentError (basic_extent T) :=
  if vals.length > ND_MAX_DIMS then
    Except.ok { m_dims := ND_MAX_DIMS + 1 }
  else
    let st := storeLoop T (fun i => vals.getD i 0)
      (fun i => vals.getD (vals.length - i - 1) 0) vals.length Store.zero Store.zero
    if math.anyBelow st.1 vals.length 1 then
      Except.error ExtentError.domain_error
    else
      Except.ok { m_extent := st.1, m_extent_alt := st.2, m_dims := vals.length }

/-- `basic_extent(const std::initializer_list<V> &vals)`, which delegates to
the vector constructor. -/
def ofInitializerList (T : IntegralType) (vals : List Int) :
    Except ExtentError (basic_extent T) :=
  ofVector T vals

/-- `basic_extent(nd_int n)`. -/
def ofCount (T : IntegralType) (n : Nat) : basic_extent T :=
  if n > ND_MAX_DIMS then
    { m_dims := ND_MAX_DIMS + 1 }
  else
    let st := storeLoop T (fun _ => 1) (fun _ => 1) n Store.zero Store.zero
    { m_extent := st.1, m_extent_alt := st.2, m_dims := n }

/-- `basic_extent(const basic_extent<T> &o)`. -/
def copy (o : basic_extent T) : basic_extent T :=
  if o.m_dims > ND_MAX_DIMS then
    { m_dims := ND_MAX_DIMS + 1 }
  else
    { m_extent := Store.memcpy Store.zero o.m_extent o.m_dims
      m_extent_alt := Store.memcpy Store.zero o.m_extent_alt o.m_dims
      m_dims := o.m_dims }

/-- `basic_extent(const std::pair<A, B> &pair)`: `first` holds the values
that `pair.first[i]` reads, `second` is `pair.second` as an `nd_int`. There
is no check against `ND_MAX_DIMS`. -/
def ofPair (T : IntegralType) (first : List Int) (second : Nat) : basic_extent T :=
  let st := storeLoop T (fun i => first.getD i 0)
    (fun i => first.getD (second - i - 1) 0) second Store.zero Store.zero
  { m_extent := st.1, m_extent_alt := st.2, m_dims := second }

/-- `basic_extent(PTR data, nd_int dims)`: `data` holds the values of the
buffer that `data[i]` reads. -/
def ofPointer (T : IntegralType) (data : List Int) (dims : Nat) : basic_extent T :=
  if dims > ND_MAX_DIMS then
    { m_dims := ND_MAX_DIMS + 1 }
  else
    let st := storeLoop T (fun i => data.getD i 0)
      (fun i => data.getD (dims - i - 1) 0) dims Store.zero Store.zero
    { m_extent := st.1, m_extent_alt := st.2, m_dims := dims }

/-- `operator[](nd_int index)`, read: the mutable and the `const` overload
have the same body. The test `index < 0` is on an unsigned value. -/
def operatorIndex (E : basic_extent T) (index : Nat) : Except ExtentError Int :=
  if index < 0 ∨ index ≥ E.m_dims then
    Except.error (ExtentError.out_of_range index E.m_dims)
  else
    Except.ok (E.m_extent index)

/-- `operator()(nd_int index, bool normal)`, both overloads. -/
def operatorCall (E : basic_extent T) (index : Nat) (normal : Bool) : Int :=
  if normal then E.m_extent index else E.m_extent_alt index

/-- `compressed()`; the two `return` statements construct an extent and can
throw as the constructor does. -/
def compressed (E : basic_extent T) : Except ExtentError (basic_extent T) :=
  if math.product E.m_extent E.m_dims = 1 then
    ofInitializerList T [1]
  else
    let res := (List.range E.m_dims).foldl
      (fun (res : List Int) i =>
        if E.m_extent i ≠ 1 then res ++ [E.m_extent i] else res) []
    ofVector T res

/-- `ndim()`. -/
def ndim (E : basic_extent T) : Nat := E.m_dims

/-- `is_valid()`: `return m_dims > 0 && m_dims < ND_MAX_DIMS;`. -/
def is_valid (E : basic_extent T) : Bool :=
  decide (E.m_dims > 0) && decide (E.m_dims < ND_MAX_DIMS)

/-- `get_extent()`. -/
def get_extent (E : basic_extent T) : Store := E.m_extent

/-- `get_extent_alt()`. -/
def get_extent_alt (E : basic_extent T) : Store := E.m_extent_alt

/-- `operator==(const basic_extent<T> &test)`. -/
def operatorEq (E test : basic_extent T) : Bool :=
  utils.check_ptr_match E.m_extent E.m_dims test.m_extent test.m_dims

/-- The loop `for (const auto &index : order)` of `reshape`, on the two
local arrays and the counter `i`. -/
def reshapeLoop (E : basic_extent nd_int) (order : List Nat) :
    Store × Store × Nat :=
  order.foldl
    (fun st index =>
      (Store.write st.1 index (E.m_extent st.2.2),
        Store.write st.2.1 index (E.m_extent_alt st.2.2), st.2.2 + 1))
    (Store.zero, Store.zero, 0)

/-- `reshape(const std::vector<O> &order)` for `extent = basic_extent<nd_int>`:
the local arrays hold `nd_int` values and `memcpy` copies `size` of them
back, so the values are copied unchanged. -/
def reshape (E : basic_extent nd_int) (order : List Nat) : basic_extent nd_int :=
  let size := E.m_dims
  let st := reshapeLoop E order
  { m_extent := Store.memcpy E.m_extent st.1 size
    m_extent_alt := Store.memcpy E.m_extent_alt st.2.1 size
    m_dims := E.m_dims }

/-- `__py_getitem(nd_int index)`. -/
def __py_getitem (E : basic_extent T) (index : Nat) : Except ExtentError Int :=
  if index < 0 ∨ index ≥ E.m_dims then
    Except.error (ExtentError.out_of_range index E.m_dims)
  else
    Except.ok (E.m_extent index)

/-- `__py_setitem(nd_int index, T value)`. -/
def __py_setitem (E : basic_extent T) (index : Nat) (value : Int) :
    Except ExtentError (basic_extent T) :=
  if index < 0 ∨ index ≥ E.m_dims then
    Except.error (ExtentError.out_of_range index E.m_dims)
  else
    Except.ok { E with m_extent := Store.write E.m_extent index value }

/-- `__py_reshape(const std::vector<nd_int> &order)`. -/
def __py_reshape (E : basic_extent nd_int) (order : List Nat) : basic_extent nd_int :=
  reshape E order

end basic_extent

/-- `using extent = basic_extent<nd_int>;`. -/
abbrev extent := basic_extent nd_int

/-! ## Vocabulary of the statements about extents -/

/-- The lengths of the axes `0, ..., ndim() - 1`, in axis order. -/
def basic_extent.lengths {T : IntegralType} (E : basic_extent T) : List Int :=
  (List.range E.m_dims).map E.m_extent

/-- Equality of results is decidable. -/
instance instDecidableEqExcept {ε α : Type} [DecidableEq ε] [DecidableEq α] :
    DecidableEq (Except ε α)
  | Except.ok a, Except.ok b =>
    if h : a = b then isTrue (by rw [h]) else isFalse (fun e => h (by injection e))
  | Except.error a, Except.error b =>
    if h : a = b then isTrue (by rw [h]) else isFalse (fun e => h (by injection e))
  | Except.ok _, Except.error _ => isFalse (fun e => by cases e)
  | Except.error _, Except.ok _ => isFalse (fun e => by cases e)

/-- The mirror invariant, read through the accessors: for every `i < ndim()`
the forward accessor `operator()(i, true)` returns `elementAt(i)` and the
reversed accessor `operator()(i, false)` returns `elementAt(ndim() - 1 - i)`. -/
def basic_extent.mirrored {T : IntegralType} (E : basic_extent T) : Prop :=
  ∀ i, i < E.ndim →
    Except.ok (E.operatorCall i true) = E.operatorIndex i ∧
    Except.ok (E.operatorCall i false) = E.operatorIndex (E.ndim - 1 - i)

instance {T : IntegralType} (E : basic_extent T) : Decidable E.mirrored := by
  unfold basic_extent.mirrored; infer_instance

/-- An axis given by the caller as an integer of a 64-bit integral type,
signed or unsigned, as the `nd_int` that the accessor receives. -/
def axisArgument (axis : Int) : Nat := (nd_int.convert axis).toNat

end ndarray

namespace librapid

/-- The local variables of `eval()` after `j` executions of the body of its
loop. -/
def ArrayView.evalStateAfter {α : Type} [Inhabited α] (V : ArrayView α) (j : Nat) :
    ArrayView.EvalState α :=
  Nat.iterate (ArrayView.evalBody V) j (ArrayView.evalInit V)

/-- Chained indexing `V[i_0][i_1]...[i_{k-1}]`: `operator[]` applied for
each index in turn, failing at the first call that fails. -/
def ArrayView.operatorIndexChain {α : Type} (V : ArrayView α) :
    List Int → Except ViewError (ArrayView α)
  | [] => Except.ok V
  | i :: rest =>
    match V.operatorIndex i with
    | Except.ok W => W.operatorIndexChain rest
    | Except.error e => Except.error e

end librapid

namespace ndarray

/-- `basic_extent() = default`: every member keeps its default member
initialiser. -/
def basic_extent.defaultConstructed (T : IntegralType) : basic_extent T := {}

/-- The assignment `E[index] = value` through the reference that the mutable
`operator[](nd_int index)` returns: the call can throw, the assignment writes
`m_extent[index]`. -/
def basic_extent.operatorIndexAssign {T : IntegralType} (E : basic_extent T)
    (index : Nat) (value : Int) : Except ExtentError (basic_extent T) :=
  if index < 0 ∨ index ≥ E.m_dims then
    Except.error (ExtentError.out_of_range index E.m_dims)
  else
    Except.ok { E with m_extent := Store.write E.m_extent index value }

end ndarray

namespace librapid

/-! ## Lists read and written by position -/

theorem getD_set_eq (l : List Int) (a i : Nat) (x : Int) :
    (l.set a x).getD i 0 = if i = a ∧ a < l.length then x else l.getD i 0 := by
  simp only [List.getD_eq_getElem?_getD, List.getElem?_set]
  by_cases h : a = i
  · subst h
    by_cases h2 : a < l.length
    · simp [h2]
    · simp [h2, List.getElem?_eq_none (Nat.le_of_not_lt h2)]
  · have h3 : ¬ i = a := fun e => h e.symm
    simp [h, h3]

theorem sum_set (l : List Int) (a n : Nat) (x : Int) (w : Nat → Int)
    (ha : a < l.length) (han : a < n) :
    ∑ i ∈ Finset.range n, (l.set a x).getD i 0 * w i
      = ∑ i ∈ Finset.range n, l.getD i 0 * w i + (x - l.getD a 0) * w a := by
  have h1 : ∀ i ∈ Finset.range n, (l.set a x).getD i 0 * w i
      = l.getD i 0 * w i + (if i = a then (x - l.getD a 0) * w a else 0) := by
    intro i _
    rw [getD_set_eq]
    by_cases h : i = a
    · subst h; simp [ha]; ring
    · simp [h]
  rw [Finset.sum_congr rfl h1, Finset.sum_add_distrib, Finset.sum_ite_eq']
  simp [han]

theorem prod_drop (s : Shape) (a : Nat) (ha : a < s.length) :
    (s.drop a).prod = s.getD a 0 * (s.drop (a + 1)).prod := by
  rw [List.drop_eq_getElem_cons ha, List.prod_cons]
  simp [List.getD_eq_getElem?_getD, List.getElem?_eq_getElem ha]

theorem prod_pos_of_pos (s : Shape) (hs : ∀ x ∈ s, 1 ≤ x) : 0 < s.prod := by
  induction s with
  | nil => simp
  | cons d ds ih =>
    rw [List.prod_cons]
    have h1 : 1 ≤ d := hs d (List.mem_cons_self _ _)
    have h2 := ih (fun x hx => hs x (List.mem_cons_of_mem _ hx))
    positivity

theorem prod_drop_pos (s : Shape) (hs : ∀ x ∈ s, 1 ≤ x) (k : Nat) :
    0 < (s.drop k).prod :=
  prod_pos_of_pos _ (fun x hx => hs x (List.mem_of_mem_drop hx))

theorem getD_pos (s : Shape) (hs : ∀ x ∈ s, 1 ≤ x) (i : Nat) (hi : i < s.length) :
    1 ≤ s.getD i 0 := by
  rw [List.getD_eq_getElem?_getD, List.getElem?_eq_getElem hi]
  exact hs _ (List.getElem_mem _)

/-! ## Row-major positions -/

theorem rowMajorPosition_cons (d x : Int) (ds xs : Shape) :
    Shape.rowMajorPosition (d :: ds) (x :: xs)
      = x * ds.prod + Shape.rowMajorPosition ds xs := by
  unfold Shape.rowMajorPosition
  rw [List.length_cons, Finset.sum_range_succ']
  simp only [List.getD_cons_succ, List.drop_succ_cons, List.getD_cons_zero,
    List.drop_zero, zero_add]
  rw [add_comm]

theorem validCoord_cons (d x : Int) (ds xs : Shape) :
    Shape.validCoord (d :: ds) (x :: xs)
      ↔ (0 ≤ x ∧ x < d) ∧ Shape.validCoord ds xs := by
  unfold Shape.validCoord
  constructor
  · rintro ⟨hl, h⟩
    refine ⟨by simpa using h 0 (by simp), by simpa using hl, ?_⟩
    intro i hi
    simpa using h (i + 1) (by simpa using hi)
  · rintro ⟨hx, hl, h⟩
    refine ⟨by simpa using hl, ?_⟩
    intro i hi
    cases i with
    | zero => simpa using hx
    | succ j => simpa using h j (by simpa using hi)

theorem rowMajorPosition_bound (s : Shape) :
    ∀ c, Shape.validCoord s c →
      0 ≤ Shape.rowMajorPosition s c ∧ Shape.rowMajorPosition s c < s.prod := by
  induction s with
  | nil => intro c _; simp [Shape.rowMajorPosition]
  | cons d ds ih =>
    intro c hc
    cases c with
    | nil => exact absurd hc.1 (by simp)
    | cons x xs =>
      rw [validCoord_cons] at hc
      obtain ⟨⟨hx0, hxd⟩, hv⟩ := hc
      obtain ⟨h0, h1⟩ := ih xs hv
      rw [rowMajorPosition_cons, List.prod_cons]
      constructor
      · have : 0 ≤ x * ds.prod := mul_nonneg hx0 (by linarith)
        linarith
      · have : (x + 1) * ds.prod ≤ d * ds.prod :=
          mul_le_mul_of_nonneg_right (by linarith) (by linarith)
        nlinarith

theorem rowMajorPosition_inj (s : Shape) :
    ∀ c c', Shape.validCoord s c → Shape.validCoord s c' →
      Shape.rowMajorPosition s c = Shape.rowMajorPosition s c' → c = c' := by
  induction s with
  | nil =>
    intro c c' hc hc' _
    have h1 : c = [] := List.eq_nil_of_length_eq_zero (by simpa using hc.1)
    have h2 : c' = [] := List.eq_nil_of_length_eq_zero (by simpa using hc'.1)
    rw [h1, h2]
  | cons d ds ih =>
    intro c c' hc hc' h
    cases c with
    | nil => exact absurd hc.1 (by simp)
    | cons x xs =>
      cases c' with
      | nil => exact absurd hc'.1 (by simp)
      | cons y ys =>
        rw [validCoord_cons] at hc hc'
        rw [rowMajorPosition_cons, rowMajorPosition_cons] at h
        obtain ⟨a0, a1⟩ := rowMajorPosition_bound ds xs hc.2
        obtain ⟨b0, b1⟩ := rowMajorPosition_bound ds ys hc'.2
        have hxy : x = y := by
          rcases lt_trichotomy x y with hlt | heq | hgt
          · exfalso
            have : (x + 1) * ds.prod ≤ y * ds.prod :=
              mul_le_mul_of_nonneg_right (by linarith) (by linarith)
            nlinarith
          · exact heq
          · exfalso
            have : (y + 1) * ds.prod ≤ x * ds.prod :=
              mul_le_mul_of_nonneg_right (by linarith) (by linarith)
            nlinarith
        subst hxy
        have : xs = ys := ih xs ys hc.2 hc'.2 (by linarith)
        rw [this]

end librapid

namespace librapid

/-! ## The odometer of `eval` -/

theorem getD_zeros (n i : Nat) : (Shape.zeros n).getD i 0 = 0 := by
  unfold Shape.zeros
  rw [List.getD_eq_getElem?_getD]
  by_cases h : i < n
  · simp [List.getElem?_replicate, h]
  · simp [List.getElem?_replicate, h]

theorem sum_eq_zero_of_coord_zero (c : Shape) (n : Nat) (w : Nat → Int)
    (h : ∀ i, i < n → c.getD i 0 = 0) :
    ∑ i ∈ Finset.range n, c.getD i 0 * w i = 0 := by
  apply Finset.sum_eq_zero
  intro i hi
  rw [h i (Finset.mem_range.mp hi), zero_mul]

/-- What the carry loop does to a coordinate vector whose axes
`rem, ..., ndim - 1` have already been reset: either it stops at an axis
(`break`) and the row-major position has grown by `prod_{j ≥ rem} s_j`, or it
runs through and every coordinate is 0 again. In both cases `p` has moved by
the same amount as the strided position of the coordinates. -/
theorem evalCarry_spec (s : Shape) (t : Stride) (hs : ∀ x ∈ s, 1 ≤ x) :
    ∀ (rem : Nat) (coord : Shape) (p : Int), rem ≤ s.length →
      coord.length = s.length →
      (∀ i, i < rem → 0 ≤ coord.getD i 0 ∧ coord.getD i 0 < s.getD i 0) →
      (∀ i, rem ≤ i → i < s.length → coord.getD i 0 = 0) →
      (ArrayView.evalCarry s t s.length rem coord p).2.1.length = s.length ∧
      (((ArrayView.evalCarry s t s.length rem coord p).1 < s.length ∧
          Shape.validCoord s (ArrayView.evalCarry s t s.length rem coord p).2.1 ∧
          Shape.rowMajorPosition s (ArrayView.evalCarry s t s.length rem coord p).2.1
            = Shape.rowMajorPosition s coord + (s.drop rem).prod ∧
          (ArrayView.evalCarry s t s.length rem coord p).2.2
            - Stride.dot (ArrayView.evalCarry s t s.length rem coord p).2.1 t s.length
            = p - Stride.dot coord t s.length) ∨
        ((ArrayView.evalCarry s t s.length rem coord p).1 = s.length ∧
          (∀ i, i < s.length →
            (ArrayView.evalCarry s t s.length rem coord p).2.1.getD i 0 = 0) ∧
          Shape.rowMajorPosition s coord + (s.drop rem).prod = s.prod ∧
          (ArrayView.evalCarry s t s.length rem coord p).2.2
            = p - Stride.dot coord t s.length)) := by
  intro rem
  induction rem with
  | zero =>
    intro coord p _ hl _ hz
    refine ⟨by simpa [ArrayView.evalCarry] using hl, Or.inr ?_⟩
    have hz' : ∀ i, i < s.length → coord.getD i 0 = 0 :=
      fun i hi => hz i (Nat.zero_le _) hi
    refine ⟨by simp [ArrayView.evalCarry], by simpa [ArrayView.evalCarry] using hz', ?_, ?_⟩
    · unfold Shape.rowMajorPosition
      rw [sum_eq_zero_of_coord_zero coord s.length _ hz']
      simp
    · unfold Stride.dot
      rw [sum_eq_zero_of_coord_zero coord s.length _ hz']
      simp [ArrayView.evalCarry]
  | succ rem ih =>
    intro coord p hrem hl hv hz
    have hrem' : rem < s.length := hrem
    have hadim : s.length - (s.length - (rem + 1)) - 1 = rem := by omega
    have hP : (s.drop rem).prod = s.getD rem 0 * (s.drop (rem + 1)).prod :=
      prod_drop s rem hrem'
    have hcl : rem < coord.length := by rw [hl]; exact hrem'
    simp only [ArrayView.evalCarry, hadim]
    by_cases hc : coord.getD rem 0 + 1 = s.getD rem 0
    · -- the axis wraps around: reset it and carry on
      rw [if_pos hc]
      have hl1 : (coord.set rem 0).length = s.length := by
        rw [List.length_set]; exact hl
      have hv1 : ∀ i, i < rem →
          0 ≤ (coord.set rem 0).getD i 0 ∧ (coord.set rem 0).getD i 0 < s.getD i 0 := by
        intro i hi
        rw [getD_set_eq, if_neg (by omega)]
        exact hv i (by omega)
      have hz1 : ∀ i, rem ≤ i → i < s.length → (coord.set rem 0).getD i 0 = 0 := by
        intro i hi hin
        rw [getD_set_eq]
        by_cases e : i = rem
        · rw [if_pos ⟨e, hcl⟩]
        · rw [if_neg (fun h => e h.1)]
          exact hz i (by omega) hin
      have hF : Shape.rowMajorPosition s (coord.set rem 0)
          = Shape.rowMajorPosition s coord
            + (0 - coord.getD rem 0) * (s.drop (rem + 1)).prod := by
        unfold Shape.rowMajorPosition
        exact sum_set coord rem s.length 0 _ hcl hrem'
      have hD : Stride.dot (coord.set rem 0) t s.length
          = Stride.dot coord t s.length + (0 - coord.getD rem 0) * t.getD rem 0 := by
        unfold Stride.dot
        exact sum_set coord rem s.length 0 _ hcl hrem'
      have hcr : coord.getD rem 0 = s.getD rem 0 - 1 := by linarith
      obtain ⟨g1, g2⟩ := ih (coord.set rem 0)
        (p - (s.getD rem 0 - 1) * t.getD rem 0) (by omega) hl1 hv1 hz1
      refine ⟨g1, ?_⟩
      rcases g2 with ⟨a1, a2, a3, a4⟩ | ⟨b1, b2, b3, b4⟩
      · refine Or.inl ⟨a1, a2, ?_, ?_⟩
        · rw [a3, hF, hP, hcr]; ring
        · rw [a4, hD, hcr]; ring
      · refine Or.inr ⟨b1, b2, ?_, ?_⟩
        · rw [← b3, hF, hP, hcr]; ring
        · rw [b4, hD, hcr]; ring
    · -- the axis advances: `break`
      rw [if_neg hc]
      have hl1 : (coord.set rem (coord.getD rem 0 + 1)).length = s.length := by
        rw [List.length_set]; exact hl
      refine ⟨hl1, Or.inl ⟨by omega, ⟨hl1, ?_⟩, ?_, ?_⟩⟩
      · intro i hi
        rw [getD_set_eq]
        by_cases e : i = rem
        · rw [if_pos ⟨e, hcl⟩]
          have h1 := hv rem (Nat.lt_succ_self rem)
          constructor
          · linarith [h1.1]
          · rw [e]
            exact lt_of_le_of_ne (by linarith [h1.2]) hc
        · rw [if_neg (fun h => e h.1)]
          by_cases e2 : i < rem
          · exact hv i (by omega)
          · rw [hz i (by omega) hi]
            exact ⟨le_refl 0, by linarith [getD_pos s hs i hi]⟩
      · unfold Shape.rowMajorPosition
        rw [sum_set coord rem s.length _ _ hcl hrem']
        ring
      · unfold Stride.dot
        show p + t.getD rem 0 - _ = _
        rw [sum_set coord rem s.length _ _ hcl hrem']
        ring

end librapid

namespace librapid

theorem validCoord_zeros (s : Shape) (hs : ∀ x ∈ s, 1 ≤ x) :
    Shape.validCoord s (Shape.zeros s.length) := by
  refine ⟨by simp [Shape.zeros], ?_⟩
  intro i hi
  rw [getD_zeros]
  exact ⟨le_refl 0, by linarith [getD_pos s hs i hi]⟩

theorem rowMajorPosition_zeros (s : Shape) :
    Shape.rowMajorPosition s (Shape.zeros s.length) = 0 := by
  unfold Shape.rowMajorPosition
  exact sum_eq_zero_of_coord_zero _ _ _ (fun i _ => getD_zeros _ i)

theorem dot_zeros (t : Stride) (n : Nat) : Stride.dot (Shape.zeros n) t n = 0 := by
  unfold Stride.dot
  exact sum_eq_zero_of_coord_zero _ _ _ (fun i _ => getD_zeros _ i)

/-- The body of the loop of `eval`, run in a state that satisfies the loop
invariant at destination slot `d`. -/
theorem evalBody_spec {α : Type} (V : ArrayView α) (hs : ∀ x ∈ V.m_shape, 1 ≤ x)
    (st : ArrayView.EvalState α)
    (hv : Shape.validCoord V.m_shape st.coord)
    (hp : st.p = Stride.dot st.coord V.m_stride V.m_shape.length)
    (hd : st.d = Shape.rowMajorPosition V.m_shape st.coord)
    (hshape : st.res.shape = V.m_shape)
    (hres : ∀ c, Shape.validCoord V.m_shape c →
      Shape.rowMajorPosition V.m_shape c < st.d →
      st.res.storage (Shape.rowMajorPosition V.m_shape c)
        = V.m_ref.scalar (V.m_offset + Stride.dot c V.m_stride V.m_shape.length)) :
    (ArrayView.evalBody V st).res.shape = V.m_shape ∧
    (ArrayView.evalBody V st).d = st.d + 1 ∧
    (ArrayView.evalBody V st).coord.length = V.m_shape.length ∧
    (∀ k, k ≠ st.d → (ArrayView.evalBody V st).res.storage k = st.res.storage k) ∧
    (ArrayView.evalBody V st).res.storage st.d
      = V.m_ref.scalar (st.p + V.m_offset) ∧
    (∀ c, Shape.validCoord V.m_shape c →
      Shape.rowMajorPosition V.m_shape c < st.d + 1 →
      (ArrayView.evalBody V st).res.storage (Shape.rowMajorPosition V.m_shape c)
        = V.m_ref.scalar (V.m_offset + Stride.dot c V.m_stride V.m_shape.length)) ∧
    (((ArrayView.evalBody V st).idim < V.ndim ∧
        Shape.validCoord V.m_shape (ArrayView.evalBody V st).coord ∧
        Shape.rowMajorPosition V.m_shape (ArrayView.evalBody V st).coord = st.d + 1 ∧
        (ArrayView.evalBody V st).p
          = Stride.dot (ArrayView.evalBody V st).coord V.m_stride V.m_shape.length) ∨
      ((ArrayView.evalBody V st).idim = V.ndim ∧
        (∀ i, i < V.m_shape.length → (ArrayView.evalBody V st).coord.getD i 0 = 0) ∧
        st.d + 1 = V.m_shape.prod ∧
        (ArrayView.evalBody V st).p = 0)) := by
  have hcarry := evalCarry_spec V.m_shape V.m_stride hs V.m_shape.length st.coord st.p
    (le_refl _) hv.1 (fun i hi => hv.2 i hi) (fun i h1 h2 => absurd h2 (by omega))
  have hP : (V.m_shape.drop V.m_shape.length).prod = 1 := by simp
  rw [hP] at hcarry
  have hstore : ∀ k, k ≠ st.d →
      (ArrayView.evalBody V st).res.storage k = st.res.storage k := by
    intro k hk
    simp [ArrayView.evalBody, ArrayType.storageSet, hk]
  have hwrite : (ArrayView.evalBody V st).res.storage st.d
      = V.m_ref.scalar (st.p + V.m_offset) := by
    simp [ArrayView.evalBody, ArrayType.storageSet]
  refine ⟨by simpa [ArrayView.evalBody, ArrayType.storageSet] using hshape,
    by simp [ArrayView.evalBody], ?_, hstore, hwrite, ?_, ?_⟩
  · simpa [ArrayView.evalBody, ArrayView.ndim, Shape.ndim] using hcarry.1
  · intro c hc hlt
    by_cases e : Shape.rowMajorPosition V.m_shape c = st.d
    · have hcc : c = st.coord :=
        rowMajorPosition_inj V.m_shape c st.coord hc hv (by rw [e, hd])
      rw [e, hwrite, hcc, hp, add_comm]
    · rw [hstore _ e]
      exact hres c hc (lt_of_le_of_ne (by linarith) e)
  · rcases hcarry.2 with ⟨a1, a2, a3, a4⟩ | ⟨b1, b2, b3, b4⟩
    · refine Or.inl ⟨by simpa [ArrayView.evalBody, ArrayView.ndim, Shape.ndim] using a1,
        by simpa [ArrayView.evalBody, ArrayView.ndim, Shape.ndim] using a2, ?_, ?_⟩
      · simp only [ArrayView.evalBody, ArrayView.ndim, Shape.ndim]
        rw [a3, hd]
      · simp only [ArrayView.evalBody, ArrayView.ndim, Shape.ndim]
        linarith
    · refine Or.inr ⟨by simpa [ArrayView.evalBody, ArrayView.ndim, Shape.ndim] using b1,
        by simpa [ArrayView.evalBody, ArrayView.ndim, Shape.ndim] using b2, ?_, ?_⟩
      · rw [hd]; exact b3
      · simp only [ArrayView.evalBody, ArrayView.ndim, Shape.ndim]
        rw [b4, hp]; ring

/-- The loop of `eval` is left after `prod s - d` further executions of its
body, with every destination slot holding the element at the strided
position of its multi-index. -/
theorem evalLoop_spec {α : Type} (V : ArrayView α) (hs : ∀ x ∈ V.m_shape, 1 ≤ x) :
    ∀ (fuel : Nat) (st : ArrayView.EvalState α),
      Shape.validCoord V.m_shape st.coord →
      st.p = Stride.dot st.coord V.m_stride V.m_shape.length →
      st.d = Shape.rowMajorPosition V.m_shape st.coord →
      st.res.shape = V.m_shape →
      (∀ c, Shape.validCoord V.m_shape c →
        Shape.rowMajorPosition V.m_shape c < st.d →
        st.res.storage (Shape.rowMajorPosition V.m_shape c)
          = V.m_ref.scalar (V.m_offset + Stride.dot c V.m_stride V.m_shape.length)) →
      V.m_shape.prod - st.d ≤ fuel →
      ∃ st', ArrayView.evalLoop V fuel st = some st' ∧
        st'.res.shape = V.m_shape ∧
        (∀ c, Shape.validCoord V.m_shape c →
          st'.res.storage (Shape.rowMajorPosition V.m_shape c)
            = V.m_ref.scalar (V.m_offset + Stride.dot c V.m_stride V.m_shape.length)) ∧
        st'.d = V.m_shape.prod ∧ st'.p = 0 ∧ st'.idim = V.ndim ∧
        st'.coord.length = V.m_shape.length ∧
        (∀ i, i < V.m_shape.length → st'.coord.getD i 0 = 0) := by
  intro fuel
  induction fuel with
  | zero =>
    intro st hv _ hd _ _ hfuel
    have := (rowMajorPosition_bound V.m_shape st.coord hv).2
    rw [← hd] at this
    simp at hfuel
    omega
  | succ fuel ih =>
    intro st hv hp hd hshape hres hfuel
    obtain ⟨h1, h2, h3, _, _, h6, h7⟩ := evalBody_spec V hs st hv hp hd hshape hres
    rcases h7 with ⟨a1, a2, a3, a4⟩ | ⟨b1, b2, b3, b4⟩
    · have hcont : ArrayView.evalLoop V (fuel + 1) st
          = ArrayView.evalLoop V fuel (ArrayView.evalBody V st) := by
        simp [ArrayView.evalLoop, a1]
      rw [hcont]
      apply ih (ArrayView.evalBody V st) a2 a4 (by rw [h2, a3]) h1
      · intro c hc hlt
        exact h6 c hc (by rw [h2] at hlt; exact hlt)
      · rw [h2]; push_cast at hfuel; linarith
    · have hstop : ArrayView.evalLoop V (fuel + 1) st
          = some (ArrayView.evalBody V st) := by
        simp [ArrayView.evalLoop, b1]
      refine ⟨_, hstop, h1, ?_, by rw [h2, b3], b4, b1, h3, b2⟩
      intro c hc
      apply h6 c hc
      rw [b3]
      exact (rowMajorPosition_bound V.m_shape c hc).2

/-- `eval()` returns, and its result has the shape of the view and holds at
the row-major position of every multi-index the owner's element at the
strided position of that multi-index. -/
theorem eval_spec {α : Type} [Inhabited α] (V : ArrayView α)
    (hs : ∀ x ∈ V.m_shape, 1 ≤ x) (fuel : Nat) (hfuel : V.m_shape.prod.toNat ≤ fuel) :
    ∃ res, V.eval fuel = some res ∧ res.shape = V.m_shape ∧
      ∀ c, Shape.validCoord V.m_shape c →
        res.storage (Shape.rowMajorPosition V.m_shape c)
          = V.m_ref.scalar (V.m_offset + Stride.dot c V.m_stride V.m_shape.length) := by
  have hinit := evalLoop_spec V hs fuel (ArrayView.evalInit V)
    (by simpa [ArrayView.evalInit, ArrayView.ndim, Shape.ndim]
      using validCoord_zeros V.m_shape hs)
    (by simp [ArrayView.evalInit, ArrayView.ndim, Shape.ndim, dot_zeros])
    (by simp [ArrayView.evalInit, ArrayView.ndim, Shape.ndim, rowMajorPosition_zeros])
    (by simp [ArrayView.evalInit, ArrayType.ofShape])
    (by
      intro c hc hlt
      have := (rowMajorPosition_bound V.m_shape c hc).1
      simp [ArrayView.evalInit] at hlt
      omega)
    (by
      have : V.m_shape.prod ≤ (V.m_shape.prod.toNat : Int) := Int.self_le_toNat _
      simp only [ArrayView.evalInit]
      have h2 : (V.m_shape.prod.toNat : Int) ≤ (fuel : Int) := by exact_mod_cast hfuel
      linarith)
  obtain ⟨st', h1, h2, h3, _⟩ := hinit
  exact ⟨st'.res, by simp [ArrayView.eval, h1], h2, h3⟩

end librapid

namespace librapid

/-! ## The mixed-radix decomposition of `scalar` -/

theorem ediv_emod_mul (k a b : Int) (ha : 0 < a) (hb : 0 < b) :
    k / (a * b) = k / b / a ∧ k % (a * b) = k % b + b * (k / b % a) := by
  have h1 : k % b + b * (k / b) = k := Int.emod_add_ediv k b
  have h2 : (k / b) % a + a * (k / b / a) = k / b := Int.emod_add_ediv (k / b) a
  have r0 : 0 ≤ k % b := Int.emod_nonneg k (ne_of_gt hb)
  have r1 : k % b < b := Int.emod_lt_of_pos k hb
  have q0 : 0 ≤ (k / b) % a := Int.emod_nonneg _ (ne_of_gt ha)
  have q1 : (k / b) % a < a := Int.emod_lt_of_pos _ ha
  have hab : 0 < a * b := mul_pos ha hb
  rw [Int.ediv_emod_unique hab]
  refine ⟨?_, ?_, ?_⟩
  · calc k % b + b * (k / b % a) + a * b * (k / b / a)
        = k % b + b * ((k / b) % a + a * (k / b / a)) := by ring
      _ = k := by rw [h2, h1]
  · have : 0 ≤ b * (k / b % a) := mul_nonneg (le_of_lt hb) q0
    linarith
  · have : b * (k / b % a + 1) ≤ b * a :=
      mul_le_mul_of_nonneg_left (by linarith) (le_of_lt hb)
    nlinarith

theorem foldl_range_add (f : Nat → Int) (n : Nat) (a : Int) :
    (List.range n).foldl (fun acc i => acc + f i) a
      = a + ∑ i ∈ Finset.range n, f i := by
  induction n with
  | zero => simp
  | succ n ih =>
    rw [List.range_succ, List.foldl_append, ih, Finset.sum_range_succ]
    simp [add_assoc]

theorem scalarOffset_eq_dot (t : Stride) (tmp : Shape) (n : Nat) :
    ArrayView.scalarOffset t tmp n = Stride.dot tmp t n := by
  unfold ArrayView.scalarOffset Stride.dot
  rw [foldl_range_add]
  simp

/-- The loop of `scalar` fills `tmp` with the mixed-radix digits of the
flat index `k`: `tmp[i] = (k / prod_{j>i} s_j) % s_i`. -/
theorem scalarUnravel_spec (s : Shape) (hs : ∀ x ∈ s, 1 ≤ x) (k : Int) (hk : 0 ≤ k) :
    ∀ (m : Nat) (index : Int) (tmp : Shape), m + 1 ≤ s.length →
      tmp.length = s.length →
      index = k / (s.drop (m + 1)).prod →
      (∀ i, m ≤ i → i < s.length →
        tmp.getD i 0 = (k / (s.drop (i + 1)).prod) % s.getD i 0) →
      (ArrayView.scalarUnravel s m index tmp).2.length = s.length ∧
      ∀ i, i < s.length →
        (ArrayView.scalarUnravel s m index tmp).2.getD i 0
          = (k / (s.drop (i + 1)).prod) % s.getD i 0 := by
  intro m
  induction m with
  | zero =>
    intro index tmp _ hl _ hd
    exact ⟨by simpa [ArrayView.scalarUnravel] using hl,
      fun i hi => by simpa [ArrayView.scalarUnravel] using hd i (Nat.zero_le _) hi⟩
  | succ m ih =>
    intro index tmp hm hl hindex hd
    have hm1 : m + 1 < s.length := hm
    have hPpos : 0 < (s.drop (m + 1 + 1)).prod := prod_drop_pos s hs _
    have hspos : 0 < s.getD (m + 1) 0 := by linarith [getD_pos s hs (m + 1) hm1]
    have hidx0 : 0 ≤ index := by
      rw [hindex]; exact Int.ediv_nonneg hk (le_of_lt hPpos)
    have hdiv : index.tdiv (s.getD (m + 1) 0) = k / (s.drop (m + 1)).prod := by
      rw [Int.tdiv_eq_ediv hidx0 (le_of_lt hspos), hindex, prod_drop s (m + 1) hm1]
      exact ((ediv_emod_mul k _ _ hspos hPpos).1).symm
    have hdiv0 : 0 ≤ k / (s.drop (m + 1)).prod :=
      Int.ediv_nonneg hk (le_of_lt (prod_drop_pos s hs _))
    have hsm : 0 < s.getD m 0 := by linarith [getD_pos s hs m (by omega)]
    simp only [ArrayView.scalarUnravel]
    apply ih _ _ (by omega) (by rw [List.length_set]; exact hl) hdiv
    intro i hmi hi
    rw [getD_set_eq]
    by_cases e : i = m
    · rw [if_pos ⟨e, by rw [hl]; omega⟩, hdiv, Int.tmod_eq_emod hdiv0 (le_of_lt hsm), e]
    · rw [if_neg (fun h => e h.1)]
      exact hd i (by omega) hi

theorem scalarCoord_digits {α : Type} (V : ArrayView α) (hs : ∀ x ∈ V.m_shape, 1 ≤ x)
    (hn : 1 ≤ V.m_shape.length) (k : Int) (hk : 0 ≤ k) :
    (V.scalarCoord k).length = V.m_shape.length ∧
    ∀ i, i < V.m_shape.length →
      (V.scalarCoord k).getD i 0
        = (k / (V.m_shape.drop (i + 1)).prod) % V.m_shape.getD i 0 := by
  unfold ArrayView.scalarCoord
  simp only [ArrayView.ndim, Shape.ndim]
  have hlast : V.m_shape.length - 1 + 1 = V.m_shape.length := by omega
  have hspos : 0 < V.m_shape.getD (V.m_shape.length - 1) 0 := by
    linarith [getD_pos V.m_shape hs (V.m_shape.length - 1) (by omega)]
  apply scalarUnravel_spec V.m_shape hs k hk
  · omega
  · simp [Shape.zeros]
  · rw [hlast]; simp
  · intro i h1 h2
    have e : i = V.m_shape.length - 1 := by omega
    rw [getD_set_eq, if_pos ⟨e, by simp [Shape.zeros]; omega⟩, e, hlast,
      Int.tmod_eq_emod hk (le_of_lt hspos)]
    simp

/-- The digits `(k / prod_{j>i} s_j) % s_i` form a valid multi-index whose
row-major position is `k`. -/
theorem digits_position (s c : Shape) (hs : ∀ x ∈ s, 1 ≤ x) (k : Int)
    (hk0 : 0 ≤ k) (hk1 : k < s.prod) (hl : c.length = s.length)
    (hc : ∀ i, i < s.length → c.getD i 0 = (k / (s.drop (i + 1)).prod) % s.getD i 0) :
    Shape.validCoord s c ∧ Shape.rowMajorPosition s c = k := by
  constructor
  · refine ⟨hl, fun i hi => ?_⟩
    have hpos : 0 < s.getD i 0 := by linarith [getD_pos s hs i hi]
    rw [hc i hi]
    exact ⟨Int.emod_nonneg _ (ne_of_gt hpos), Int.emod_lt_of_pos _ hpos⟩
  · unfold Shape.rowMajorPosition
    have h1 : ∀ i ∈ Finset.range s.length, c.getD i 0 * (s.drop (i + 1)).prod
        = k % (s.drop i).prod - k % (s.drop (i + 1)).prod := by
      intro i hi
      have hi' : i < s.length := Finset.mem_range.mp hi
      have hpos : 0 < s.getD i 0 := by linarith [getD_pos s hs i hi']
      rw [hc i hi', prod_drop s i hi',
        (ediv_emod_mul k _ _ hpos (prod_drop_pos s hs (i + 1))).2]
      ring
    rw [Finset.sum_congr rfl h1, Finset.sum_range_sub' (fun i => k % (s.drop i).prod)]
    simp [Int.emod_eq_of_lt hk0 hk1]

/-- `scalar(k)` on a view of rank at least 1 reads the owner at the strided
position of the multi-index whose row-major position is `k`. -/
theorem scalar_spec {α : Type} (V : ArrayView α) (hs : ∀ x ∈ V.m_shape, 1 ≤ x)
    (hn : 1 ≤ V.m_shape.length) (k : Int) (hk0 : 0 ≤ k) (hk1 : k < V.m_shape.prod)
    (c : Shape) (hc : Shape.validCoord V.m_shape c)
    (hck : Shape.rowMajorPosition V.m_shape c = k) :
    V.scalar k
      = V.m_ref.scalar (V.m_offset + Stride.dot c V.m_stride V.m_shape.length) := by
  obtain ⟨hl, hd⟩ := scalarCoord_digits V hs hn k hk0
  obtain ⟨hv, hp⟩ := digits_position V.m_shape _ hs k hk0 hk1 hl hd
  have hcc : c = V.scalarCoord k :=
    rowMajorPosition_inj V.m_shape c _ hc hv (by rw [hck, hp])
  unfold ArrayView.scalar
  have hne : ¬ V.ndim = 0 := by simp only [ArrayView.ndim, Shape.ndim]; omega
  rw [if_neg hne]
  simp only [scalarOffset_eq_dot, ArrayView.ndim, Shape.ndim]
  rw [hcc]

end librapid

namespace librapid

/-! ## `operator[]` -/

theorem operatorIndex_ok {α : Type} (V : ArrayView α) (i : Int)
    (h0 : 0 ≤ i) (h1 : i < V.m_shape.getD 0 0) :
    V.operatorIndex i = Except.ok (V.derived i) := by
  unfold ArrayView.operatorIndex ArrayView.derived
  rw [if_pos ⟨h0, h1⟩]
  by_cases h : V.ndim = 1
  · simp [h, ArrayView.setShape, ArrayView.setStride, ArrayView.setOffset,
      ArrayView.ofArray]
  · simp [h, ArrayView.setShape, ArrayView.setStride, ArrayView.setOffset,
      ArrayView.ofArray]

theorem operatorIndex_error {α : Type} (V : ArrayView α) (i : Int)
    (h : ¬ (0 ≤ i ∧ i < V.m_shape.getD 0 0)) :
    V.operatorIndex i
      = Except.error (ViewError.indexOutOfRange i (V.m_shape.getD 0 0)) := by
  unfold ArrayView.operatorIndex
  rw [if_neg h]

theorem operatorIndex_inv {α : Type} (V W : ArrayView α) (i : Int)
    (h : V.operatorIndex i = Except.ok W) :
    (0 ≤ i ∧ i < V.m_shape.getD 0 0) ∧ W = V.derived i := by
  by_cases hc : 0 ≤ i ∧ i < V.m_shape.getD 0 0
  · rw [operatorIndex_ok V i hc.1 hc.2] at h
    injection h with h
    exact ⟨hc, h.symm⟩
  · rw [operatorIndex_error V i hc] at h
    cases h

theorem subshape_one (s : Shape) : Shape.subshape s 1 s.length = s.drop 1 := by
  unfold Shape.subshape
  apply List.take_of_length_le
  simp

theorem ofShape_length (s : Shape) : (Stride.ofShape s).length = s.length := by
  induction s with
  | nil => rfl
  | cons d ds ih => simp [Stride.ofShape, ih]

theorem ofShape_drop_one (s : Shape) :
    (Stride.ofShape s).drop 1 = Stride.ofShape (s.drop 1) := by
  cases s with
  | nil => rfl
  | cons d ds => simp [Stride.ofShape]

theorem ofShape_getD_zero (s : Shape) (h : 1 ≤ s.length) :
    (Stride.ofShape s).getD 0 0 = (s.drop 1).prod := by
  cases s with
  | nil => simp at h
  | cons d ds => simp [Stride.ofShape]

theorem ofShape_getD (s : Shape) :
    ∀ i, i < s.length → (Stride.ofShape s).getD i 0 = (s.drop (i + 1)).prod := by
  induction s with
  | nil => intro i hi; simp at hi
  | cons d ds ih =>
    intro i hi
    cases i with
    | zero => simp [Stride.ofShape]
    | succ j =>
      simp only [Stride.ofShape, List.getD_cons_succ, List.drop_succ_cons]
      exact ih j (by simpa using hi)

theorem derived_shape {α : Type} (V : ArrayView α) (i : Int) :
    (V.derived i).m_shape = V.m_shape.drop 1 := by
  simp [ArrayView.derived, ArrayView.ndim, Shape.ndim, subshape_one]

theorem derived_stride_of_two_le {α : Type} (V : ArrayView α) (i : Int)
    (h : 2 ≤ V.ndim) :
    (V.derived i).m_stride = (Stride.ofShape V.m_shape).drop 1 := by
  have hne : ¬ V.ndim = 1 := by omega
  have hl : V.ndim = (Stride.ofShape V.m_shape).length := by
    rw [ofShape_length]; rfl
  simp only [ArrayView.derived, if_neg hne]
  rw [hl, subshape_one]

theorem derived_offset {α : Type} (V : ArrayView α) (i : Int) (h : 1 ≤ V.ndim) :
    (V.derived i).m_offset = V.m_offset + i * (V.m_shape.drop 1).prod := by
  simp only [ArrayView.derived]
  rw [ofShape_getD_zero V.m_shape h]

end librapid

namespace librapid

/-! ## Claims about the view -/

/-- C1: for a view with shape `s` (every length at least 1), any stride `t`
and any offset `o`, `eval()` returns (given fuel for `prod s` executions of
its loop body) an array whose shape is the shape of the view and whose
linear storage holds, at the row-major position of every valid multi-index
`c`, the owner's element `scalar(o + sum_i c_i * t_i)`. -/
theorem C1_eval_reads_strided_positions {α : Type} [Inhabited α]
    (V : ArrayView α) (hs : ∀ x ∈ V.shape, 1 ≤ x) (fuel : Nat)
    (hfuel : V.shape.prod.toNat ≤ fuel) :
    ∃ res, V.eval fuel = some res ∧ res.shape = V.shape ∧
      ∀ c, Shape.validCoord V.shape c →
        res.storage (Shape.rowMajorPosition V.shape c)
          = V.m_ref.scalar (V.offset + Stride.dot c V.stride V.ndim) :=
  eval_spec V hs fuel hfuel

/-- C1 at the view of shape (2, 2), stride (3, 1) and offset 1 over the
2 x 3 example array. -/
theorem C1_eval_reads_strided_positions_witness :
    (∀ x ∈ exampleView.shape, 1 ≤ x) ∧ exampleView.shape.prod.toNat ≤ 4 ∧
    ∃ res, exampleView.eval 4 = some res ∧ res.shape = exampleView.shape ∧
      ∀ c, Shape.validCoord exampleView.shape c →
        res.storage (Shape.rowMajorPosition exampleView.shape c)
          = exampleView.m_ref.scalar
              (exampleView.offset + Stride.dot c exampleView.stride exampleView.ndim) :=
  ⟨by decide, by decide,
    C1_eval_reads_strided_positions exampleView (by decide) 4 (by decide)⟩

/-- C3: on a view of rank at least 1 with every length at least 1 and a flat
index `0 ≤ k < prod s`, there is exactly one valid multi-index `c` whose
row-major position under the view's own shape is `k`, and `scalar(k)` returns
the owner's element `scalar(o + sum_i c_i * t_i)`; on a rank-0 view
`scalar(k)` returns the owner's element `scalar(o)` for every `k`. -/
theorem C3_scalar_unravels_flat_index {α : Type} (V : ArrayView α) (k : Int) :
    (V.ndim = 0 → V.scalar k = V.m_ref.scalar V.offset) ∧
    (1 ≤ V.ndim → (∀ x ∈ V.shape, 1 ≤ x) → 0 ≤ k → k < V.shape.prod →
      ∃ c, Shape.validCoord V.shape c ∧ Shape.rowMajorPosition V.shape c = k ∧
        (∀ c', Shape.validCoord V.shape c' →
          Shape.rowMajorPosition V.shape c' = k → c' = c) ∧
        V.scalar k = V.m_ref.scalar (V.offset + Stride.dot c V.stride V.ndim)) := by
  constructor
  · intro h
    simp [ArrayView.scalar, h, ArrayView.offset]
  · intro hn hs hk0 hk1
    obtain ⟨hl, hd⟩ := scalarCoord_digits V hs hn k hk0
    obtain ⟨hv, hp⟩ := digits_position V.m_shape _ hs k hk0 hk1 hl hd
    refine ⟨V.scalarCoord k, hv, hp, ?_, scalar_spec V hs hn k hk0 hk1 _ hv hp⟩
    intro c' hc' hk'
    exact rowMajorPosition_inj V.m_shape c' _ hc' hv (hk'.trans hp.symm)

/-- C3 at flat index 3 of the example view: the multi-index is (1, 1). -/
theorem C3_scalar_unravels_flat_index_witness :
    1 ≤ exampleView.ndim ∧ (∀ x ∈ exampleView.shape, 1 ≤ x) ∧
    (0 : Int) ≤ 3 ∧ 3 < exampleView.shape.prod ∧
    ∃ c, Shape.validCoord exampleView.shape c ∧
      Shape.rowMajorPosition exampleView.shape c = 3 ∧
      (∀ c', Shape.validCoord exampleView.shape c' →
        Shape.rowMajorPosition exampleView.shape c' = 3 → c' = c) ∧
      exampleView.scalar 3 = exampleView.m_ref.scalar
        (exampleView.offset + Stride.dot c exampleView.stride exampleView.ndim) :=
  ⟨by decide, by decide, by decide, by decide,
    (C3_scalar_unravels_flat_index exampleView 3).2
      (by decide) (by decide) (by decide) (by decide)⟩

/-- C4: on a view of rank at least 1 and an index `0 ≤ i < shape[0]`,
`operator[]` returns a view whose offset is the offset of the parent plus
`i` times the product of the lengths of the axes after axis 0 (the empty
product 1 for a 1-dimensional parent). -/
theorem C4_index_offset {α : Type} (V : ArrayView α) (i : Int)
    (hn : 1 ≤ V.ndim) (h0 : 0 ≤ i) (h1 : i < V.shape.getD 0 0) :
    ∃ W, V.operatorIndex i = Except.ok W ∧
      W.offset = V.offset + i * (V.shape.drop 1).prod :=
  ⟨V.derived i, operatorIndex_ok V i h0 h1, derived_offset V i hn⟩

/-- C4 at row 1 of the full view of the 2 x 3 example array. -/
theorem C4_index_offset_witness :
    1 ≤ (ArrayView.ofArray exampleArray).ndim ∧ (0 : Int) ≤ 1 ∧
    1 < (ArrayView.ofArray exampleArray).shape.getD 0 0 ∧
    ∃ W, (ArrayView.ofArray exampleArray).operatorIndex 1 = Except.ok W ∧
      W.offset = (ArrayView.ofArray exampleArray).offset
        + 1 * ((ArrayView.ofArray exampleArray).shape.drop 1).prod :=
  ⟨by decide, by decide, by decide,
    C4_index_offset (ArrayView.ofArray exampleArray) 1 (by decide) (by decide) (by decide)⟩

/-- C5: on a view of rank at least 1 and an index `0 ≤ i < shape[0]`,
`operator[]` returns a view of rank `ndim - 1` whose shape is the shape of
the parent with axis 0 removed; indexing a 1-dimensional view gives a rank-0
view. -/
theorem C5_index_shape {α : Type} (V : ArrayView α) (i : Int)
    (_hn : 1 ≤ V.ndim) (h0 : 0 ≤ i) (h1 : i < V.shape.getD 0 0) :
    ∃ W, V.operatorIndex i = Except.ok W ∧ W.ndim = V.ndim - 1 ∧
      W.shape = V.shape.drop 1 ∧
      (∀ k, k < V.ndim - 1 → W.shape.getD k 0 = V.shape.getD (k + 1) 0) ∧
      (V.ndim = 1 → W.ndim = 0) := by
  have hsh : (V.derived i).shape = V.shape.drop 1 := derived_shape V i
  have hnd : (V.derived i).ndim = V.ndim - 1 := by
    simp only [ArrayView.ndim, Shape.ndim, derived_shape, List.length_drop]
  refine ⟨V.derived i, operatorIndex_ok V i h0 h1, hnd, hsh, ?_, ?_⟩
  · intro k _
    rw [hsh]
    simp [List.getD_eq_getElem?_getD, List.getElem?_drop, add_comm]
  · intro h
    rw [hnd, h]

/-- C5 at a 1-dimensional row of the example array. -/
theorem C5_index_shape_witness :
    1 ≤ ((ArrayView.ofArray exampleArray).derived 1).ndim ∧ (0 : Int) ≤ 2 ∧
    2 < ((ArrayView.ofArray exampleArray).derived 1).shape.getD 0 0 ∧
    ∃ W, ((ArrayView.ofArray exampleArray).derived 1).operatorIndex 2 = Except.ok W ∧
      W.ndim = ((ArrayView.ofArray exampleArray).derived 1).ndim - 1 ∧
      W.shape = ((ArrayView.ofArray exampleArray).derived 1).shape.drop 1 ∧
      (∀ k, k < ((ArrayView.ofArray exampleArray).derived 1).ndim - 1 →
        W.shape.getD k 0
          = ((ArrayView.ofArray exampleArray).derived 1).shape.getD (k + 1) 0) ∧
      (((ArrayView.ofArray exampleArray).derived 1).ndim = 1 → W.ndim = 0) :=
  ⟨by decide, by decide, by decide,
    C5_index_shape ((ArrayView.ofArray exampleArray).derived 1) 2
      (by decide) (by decide) (by decide)⟩

/-- C6: on a view of rank at least 1 and a signed index `i`, `operator[]`
fails if and only if `i < 0` or `i ≥ shape[0]`, the failure is the
out-of-range error carrying `i` and `shape[0]`, and for every other `i` it
returns the derived view. -/
theorem C6_index_out_of_range {α : Type} (V : ArrayView α) (i : Int)
    (_hn : 1 ≤ V.ndim) :
    ((∃ e, V.operatorIndex i = Except.error e) ↔ (i < 0 ∨ V.shape.getD 0 0 ≤ i)) ∧
    (∀ e, V.operatorIndex i = Except.error e →
      e = ViewError.indexOutOfRange i (V.shape.getD 0 0)) ∧
    (¬ (i < 0 ∨ V.shape.getD 0 0 ≤ i) → ∃ W, V.operatorIndex i = Except.ok W) := by
  by_cases hc : 0 ≤ i ∧ i < V.m_shape.getD 0 0
  · have hok := operatorIndex_ok V i hc.1 hc.2
    refine ⟨⟨?_, ?_⟩, ?_, fun _ => ⟨_, hok⟩⟩
    · rintro ⟨e, he⟩
      rw [hok] at he
      cases he
    · intro h
      exfalso
      simp only [ArrayView.shape] at h
      omega
    · intro e he
      rw [hok] at he
      cases he
  · have herr := operatorIndex_error V i hc
    refine ⟨⟨?_, fun _ => ⟨_, herr⟩⟩, ?_, ?_⟩
    · intro _
      simp only [ArrayView.shape]
      by_contra hcon
      exact hc ⟨by omega, by omega⟩
    · intro e he
      rw [herr] at he
      injection he with he
      exact he.symm
    · intro h
      exfalso
      simp only [ArrayView.shape] at h
      exact hc ⟨by omega, by omega⟩

/-- C6 at index 2 of the full view of the 2 x 3 example array: it fails with
the error carrying 2 and the leading dimension 2. -/
theorem C6_index_out_of_range_witness :
    1 ≤ (ArrayView.ofArray exampleArray).ndim ∧
    (ArrayView.ofArray exampleArray).operatorIndex 2
      = Except.error (ViewError.indexOutOfRange 2 2) ∧
    ((∃ e, (ArrayView.ofArray exampleArray).operatorIndex 2 = Except.error e) ↔
      ((2 : Int) < 0 ∨ (ArrayView.ofArray exampleArray).shape.getD 0 0 ≤ 2)) :=
  ⟨by decide, rfl,
    (C6_index_out_of_range (ArrayView.ofArray exampleArray) 2 (by decide)).1⟩

end librapid

namespace librapid

theorem dot_ofShape (s c : Shape) :
    Stride.dot c (Stride.ofShape s) s.length = Shape.rowMajorPosition s c := by
  unfold Stride.dot Shape.rowMajorPosition
  apply Finset.sum_congr rfl
  intro i hi
  rw [ofShape_getD s i (Finset.mem_range.mp hi)]

/-- A view that starts at offset 0 and whose stride is the row-major stride
of its shape evaluates to the leading elements of its owner: the round trip
holds for such a view. -/
theorem eval_rowMajor_roundtrip {α : Type} [Inhabited α] (V : ArrayView α)
    (hs : ∀ x ∈ V.m_shape, 1 ≤ x) (hstride : V.m_stride = Stride.ofShape V.m_shape)
    (hoff : V.m_offset = 0) (fuel : Nat) (hfuel : V.m_shape.prod.toNat ≤ fuel) :
    ∃ res, V.eval fuel = some res ∧ res.shape = V.m_shape ∧
      ∀ k, 0 ≤ k → k < V.m_shape.prod → res.storage k = V.m_ref.scalar k := by
  obtain ⟨res, h1, h2, h3⟩ := eval_spec V hs fuel hfuel
  refine ⟨res, h1, h2, ?_⟩
  intro k hk0 hk1
  by_cases hn : 1 ≤ V.m_shape.length
  · obtain ⟨hl, hd⟩ := scalarCoord_digits V hs hn k hk0
    obtain ⟨hv, hp⟩ := digits_position V.m_shape _ hs k hk0 hk1 hl hd
    have := h3 _ hv
    rw [hp, hstride, dot_ofShape, hp, hoff, zero_add] at this
    exact this
  · have hnil : V.m_shape = [] := List.eq_nil_of_length_eq_zero (by omega)
    have hv : Shape.validCoord V.m_shape [] := by
      rw [hnil]; exact ⟨rfl, fun i hi => absurd hi (by simp)⟩
    have := h3 _ hv
    rw [hnil] at hk1
    have hk : k = 0 := by simp at hk1; omega
    rw [hstride, dot_ofShape, hoff] at this
    simpa [hnil, Shape.rowMajorPosition, hk] using this

/-- C7: for a 2-dimensional array with `R ≥ 1` rows and `C ≥ 1` columns and
a row `0 ≤ r < R`, `ArrayView(A)[r]` is a rank-1 view of shape `(C)` with
offset `r * C`, and its `eval()` is the `C`-element array
`A.scalar(r*C), ..., A.scalar(r*C + C - 1)`. -/
theorem C7_row_of_matrix {α : Type} [Inhabited α] (A : ArrayType α) (R C r : Int)
    (hA : A.shape = [R, C]) (_hR : 1 ≤ R) (hC : 1 ≤ C) (hr0 : 0 ≤ r) (hr1 : r < R)
    (fuel : Nat) (hfuel : C.toNat ≤ fuel) :
    ∃ W res, (ArrayView.ofArray A).operatorIndex r = Except.ok W ∧
      W.ndim = 1 ∧ W.shape = [C] ∧ W.offset = r * C ∧
      W.eval fuel = some res ∧ res.shape = [C] ∧
      ∀ j, 0 ≤ j → j < C → res.storage j = A.scalar (r * C + j) := by
  have hshape : (ArrayView.ofArray A).m_shape = [R, C] := hA
  have hok := operatorIndex_ok (ArrayView.ofArray A) r hr0 (by rw [hshape]; simpa using hr1)
  have hWs : ((ArrayView.ofArray A).derived r).m_shape = [C] := by
    rw [derived_shape, hshape]; rfl
  have hWt : ((ArrayView.ofArray A).derived r).m_stride = [1] := by
    rw [derived_stride_of_two_le _ _ (by simp [ArrayView.ndim, Shape.ndim, hshape]), hshape]
    simp [Stride.ofShape]
  have hWo : ((ArrayView.ofArray A).derived r).m_offset = r * C := by
    rw [derived_offset _ _ (by simp [ArrayView.ndim, Shape.ndim, hshape]), hshape]
    simp [ArrayView.ofArray]
  have hWr : ((ArrayView.ofArray A).derived r).m_ref = A := rfl
  obtain ⟨res, h1, h2, h3⟩ := eval_spec ((ArrayView.ofArray A).derived r)
    (by rw [hWs]; simpa using hC) fuel (by rw [hWs]; simpa using hfuel)
  refine ⟨_, res, hok, by simp [ArrayView.ndim, Shape.ndim, hWs], hWs, hWo, h1,
    by rw [h2, hWs], ?_⟩
  intro j hj0 hj1
  have hv : Shape.validCoord ((ArrayView.ofArray A).derived r).m_shape [j] := by
    rw [hWs]
    refine ⟨rfl, fun i hi => ?_⟩
    have : i = 0 := by simpa using hi
    subst this
    simpa using ⟨hj0, hj1⟩
  have := h3 [j] hv
  rw [hWs, hWt, hWo, hWr] at this
  simpa [Shape.rowMajorPosition, Stride.dot] using this

/-- C7 at the 2 x 3 array `[[1, 2, 3], [4, 5, 6]]`: `view[1]` has shape (3),
offset 3 and evaluates to `[4, 5, 6]`. -/
theorem C7_row_of_matrix_witness :
    (exampleArray.shape = [2, 3] ∧ (1 : Int) ≤ 2 ∧ (1 : Int) ≤ 3 ∧
      (0 : Int) ≤ 1 ∧ (1 : Int) < 2 ∧ (3 : Int).toNat ≤ 3) ∧
    (∃ W res, (ArrayView.ofArray exampleArray).operatorIndex 1 = Except.ok W ∧
      W.ndim = 1 ∧ W.shape = [3] ∧ W.offset = 1 * 3 ∧
      W.eval 3 = some res ∧ res.shape = [3] ∧
      ∀ j, 0 ≤ j → j < 3 → res.storage j = exampleArray.scalar (1 * 3 + j)) ∧
    (ArrayView.ofArray exampleArray).operatorIndex 1
      = Except.ok ((ArrayView.ofArray exampleArray).derived 1) ∧
    ((ArrayView.ofArray exampleArray).derived 1).shape = [3] ∧
    ((ArrayView.ofArray exampleArray).derived 1).offset = 3 ∧
    (((ArrayView.ofArray exampleArray).derived 1).eval 3).map
      (fun res => res.toList 3) = some [4, 5, 6] :=
  ⟨by decide,
    C7_row_of_matrix exampleArray 2 3 1 rfl (by decide) (by decide) (by decide)
      (by decide) 3 (by decide),
    rfl, by decide, by decide, by decide⟩

/-- C2: for every array `A` whose lengths are all at least 1, `eval()` of
the full view `ArrayView(A)` returns (given fuel for `prod shape` executions
of its loop body) an array with the shape of `A` whose linear storage holds
`A.scalar(k)` at every position `0 ≤ k < prod shape`. -/
theorem C2_full_view_round_trip {α : Type} [Inhabited α] (A : ArrayType α)
    (hA : ∀ x ∈ A.shape, 1 ≤ x) (fuel : Nat) (hfuel : A.shape.prod.toNat ≤ fuel) :
    ∃ res, (ArrayView.ofArray A).eval fuel = some res ∧ res.shape = A.shape ∧
      ∀ k, 0 ≤ k → k < A.shape.prod → res.storage k = A.scalar k :=
  eval_rowMajor_roundtrip (ArrayView.ofArray A) hA rfl rfl fuel hfuel

/-- C2 at the 2 x 3 array `[[1, 2, 3], [4, 5, 6]]`: the full view has the
stride (3, 1) and evaluates to the six elements 1, ..., 6 of the owner. -/
theorem C2_full_view_round_trip_witness :
    (∀ x ∈ exampleArray.shape, 1 ≤ x) ∧ exampleArray.shape.prod.toNat ≤ 6 ∧
    (∃ res, (ArrayView.ofArray exampleArray).eval 6 = some res ∧
      res.shape = exampleArray.shape ∧
      ∀ k, 0 ≤ k → k < exampleArray.shape.prod → res.storage k = exampleArray.scalar k) ∧
    (ArrayView.ofArray exampleArray).stride = [3, 1] ∧
    ((ArrayView.ofArray exampleArray).eval 6).map
      (fun res => (res.shape, res.toList 6)) = some ([2, 3], [1, 2, 3, 4, 5, 6]) ∧
    (List.range 6).map (fun k => exampleArray.scalar (k : Int)) = [1, 2, 3, 4, 5, 6] :=
  ⟨by decide, by decide,
    C2_full_view_round_trip exampleArray (by decide) 6 (by decide),
    by decide, by decide, by decide⟩

end librapid

namespace librapid

theorem derived_of_ndim_one {α : Type} (V : ArrayView α) (i : Int) (h : V.ndim = 1) :
    (V.derived i).m_shape = [] ∧ (V.derived i).m_stride = Stride.unit := by
  constructor
  · rw [derived_shape]
    apply List.eq_nil_of_length_eq_zero
    have : V.m_shape.length = 1 := h
    simp [this]
  · simp [ArrayView.derived, h]

theorem ndim_pos_of_index_ok {α : Type} (V W : ArrayView α) (i : Int)
    (h : V.operatorIndex i = Except.ok W) : 1 ≤ V.ndim := by
  obtain ⟨⟨h0, h1⟩, _⟩ := operatorIndex_inv V W i h
  by_contra hcon
  have hnil : V.m_shape = [] :=
    List.eq_nil_of_length_eq_zero (by simp only [ArrayView.ndim, Shape.ndim] at hcon; omega)
  rw [hnil] at h1
  simp at h1
  omega

/-- C9, refuted as stated: the view obtained by indexing the full view of
the 1-dimensional array `[7, 8, 9]` is reachable, its shape has rank 0 and
its stride has rank 1. -/
theorem C9_counterexample :
    ArrayView.Reachable exampleVector ((ArrayView.ofArray exampleVector).derived 0) ∧
    (ArrayView.ofArray exampleVector).ndim = 1 ∧
    Shape.ndim ((ArrayView.ofArray exampleVector).derived 0).shape = 0 ∧
    Shape.ndim ((ArrayView.ofArray exampleVector).derived 0).stride = 1 :=
  ⟨ArrayView.Reachable.index (ArrayView.ofArray exampleVector) _ 0
      ArrayView.Reachable.full rfl,
    by decide, by decide, by decide⟩

/-- C9, amended: every view of rank at least 1 that is reachable from the
full view by zero or more successful `operator[]` calls has a stride of the
rank of its shape; a reachable rank-0 view has the empty stride or the
single unit stride (1), and indexing a 1-dimensional view gives a rank-0
view whose stride is the single unit stride (1), of rank 1. -/
theorem C9_stride_rank_amended {α : Type} (A : ArrayType α) (V : ArrayView α)
    (h : ArrayView.Reachable A V) :
    (1 ≤ V.ndim → Shape.ndim V.stride = Shape.ndim V.shape) ∧
    (V.ndim = 0 → V.stride = [] ∨ V.stride = Stride.unit) ∧
    (∀ i W, V.ndim = 1 → V.operatorIndex i = Except.ok W →
      Shape.ndim W.shape = 0 ∧ W.stride = Stride.unit ∧ Shape.ndim W.stride = 1) := by
  have hlast : ∀ (U : ArrayView α) i W, U.ndim = 1 → U.operatorIndex i = Except.ok W →
      Shape.ndim W.shape = 0 ∧ W.stride = Stride.unit ∧ Shape.ndim W.stride = 1 := by
    intro U i W hU hW
    obtain ⟨_, hWd⟩ := operatorIndex_inv U W i hW
    obtain ⟨e1, e2⟩ := derived_of_ndim_one U i hU
    rw [hWd]
    refine ⟨?_, e2, ?_⟩
    · show Shape.ndim (U.derived i).m_shape = 0
      rw [e1]; rfl
    · show Shape.ndim (U.derived i).m_stride = 1
      rw [e2]; rfl
  refine ⟨?_, ?_, hlast V⟩
  · induction h with
    | full =>
      intro _
      show (Stride.ofShape A.shape).length = A.shape.length
      exact ofShape_length A.shape
    | index P W i _ hW _ =>
      intro hn
      obtain ⟨_, hWd⟩ := operatorIndex_inv P W i hW
      have hP : 2 ≤ P.ndim := by
        have : W.ndim = P.ndim - 1 := by
          rw [hWd]
          simp only [ArrayView.ndim, Shape.ndim, derived_shape, List.length_drop]
        omega
      rw [hWd]
      simp only [ArrayView.stride, ArrayView.shape, Shape.ndim,
        derived_stride_of_two_le P i hP, derived_shape, List.length_drop, ofShape_length]
  · induction h with
    | full =>
      intro hn
      left
      have hnil : A.shape = [] := List.eq_nil_of_length_eq_zero hn
      show Stride.ofShape A.shape = []
      rw [hnil]; rfl
    | index P W i _ hW _ =>
      intro hn
      right
      obtain ⟨_, hWd⟩ := operatorIndex_inv P W i hW
      have hP1 := ndim_pos_of_index_ok P W i hW
      have hP : P.ndim = 1 := by
        have : W.ndim = P.ndim - 1 := by
          rw [hWd]
          simp only [ArrayView.ndim, Shape.ndim, derived_shape, List.length_drop]
        omega
      rw [hWd]
      exact (derived_of_ndim_one P i hP).2

/-- C9, amended, at the full view of the 1-dimensional array `[7, 8, 9]`:
it is reachable and of rank 1, its stride has the rank of its shape, and
indexing it gives a view whose shape has rank 0 and whose stride is (1). -/
theorem C9_stride_rank_amended_witness :
    ArrayView.Reachable exampleVector (ArrayView.ofArray exampleVector) ∧
    Shape.ndim (ArrayView.ofArray exampleVector).stride
      = Shape.ndim (ArrayView.ofArray exampleVector).shape ∧
    (∀ i W, (ArrayView.ofArray exampleVector).ndim = 1 →
      (ArrayView.ofArray exampleVector).operatorIndex i = Except.ok W →
      Shape.ndim W.shape = 0 ∧ W.stride = Stride.unit ∧ Shape.ndim W.stride = 1) :=
  ⟨ArrayView.Reachable.full,
    (C9_stride_rank_amended exampleVector (ArrayView.ofArray exampleVector)
      ArrayView.Reachable.full).1 (by decide),
    (C9_stride_rank_amended exampleVector (ArrayView.ofArray exampleVector)
      ArrayView.Reachable.full).2.2⟩

end librapid

namespace librapid

/-! ## Addressing of the views returned by `operator[]` -/

theorem reachable_block {α : Type} (A : ArrayType α) (hA : ∀ x ∈ A.shape, 1 ≤ x)
    (V : ArrayView α) (h : ArrayView.Reachable A V) :
    (∀ x ∈ V.m_shape, 1 ≤ x) ∧ 0 ≤ V.m_offset ∧
      V.m_offset + V.m_shape.prod ≤ A.shape.prod := by
  induction h with
  | full => exact ⟨hA, le_refl 0, by simp [ArrayView.ofArray]⟩
  | index P W i _ hW ih =>
    obtain ⟨hs, ho, hb⟩ := ih
    obtain ⟨⟨h0, h1⟩, hWd⟩ := operatorIndex_inv P W i hW
    have hP1 : 1 ≤ P.m_shape.length := ndim_pos_of_index_ok P W i hW
    have hpos : 0 < (P.m_shape.drop 1).prod := prod_drop_pos P.m_shape hs 1
    have hprod : P.m_shape.prod = P.m_shape.getD 0 0 * (P.m_shape.drop 1).prod := by
      simpa using prod_drop P.m_shape 0 (by omega)
    have hmul : (i + 1) * (P.m_shape.drop 1).prod
        ≤ P.m_shape.getD 0 0 * (P.m_shape.drop 1).prod :=
      mul_le_mul_of_nonneg_right (by omega) (le_of_lt hpos)
    have hi0 : 0 ≤ i * (P.m_shape.drop 1).prod := mul_nonneg h0 (le_of_lt hpos)
    rw [hWd, derived_shape, derived_offset P i hP1]
    refine ⟨fun x hx => hs x (List.mem_of_mem_drop hx), by linarith, ?_⟩
    nlinarith

/-- Every view returned by `operator[]` on a reachable view addresses live
elements of the owner only. -/
theorem derived_inside_owner {α : Type} (A : ArrayType α) (hA : ∀ x ∈ A.shape, 1 ≤ x)
    (V W : ArrayView α) (i : Int) (hV : ArrayView.Reachable A V)
    (hW : V.operatorIndex i = Except.ok W) : ArrayView.InsideOwner A W := by
  obtain ⟨hs, ho, hb⟩ := reachable_block A hA W (ArrayView.Reachable.index V W i hV hW)
  obtain ⟨_, hWd⟩ := operatorIndex_inv V W i hW
  have hV1 : 1 ≤ V.ndim := ndim_pos_of_index_ok V W i hW
  have hdot : ∀ c, Stride.dot c W.m_stride W.m_shape.length
      = Shape.rowMajorPosition W.m_shape c := by
    intro c
    by_cases h2 : 2 ≤ V.ndim
    · have : W.m_stride = Stride.ofShape W.m_shape := by
        rw [hWd, derived_stride_of_two_le V i h2, derived_shape, ofShape_drop_one]
      rw [this, dot_ofShape]
    · have hnil : W.m_shape = [] := by
        rw [hWd]; exact (derived_of_ndim_one V i (by omega)).1
      simp [hnil, Stride.dot, Shape.rowMajorPosition]
  refine ⟨ho, fun c hc => ?_⟩
  obtain ⟨b0, b1⟩ := rowMajorPosition_bound W.m_shape c hc
  simp only [ArrayView.offset, ArrayView.stride, ArrayView.ndim, Shape.ndim]
  rw [hdot c]
  constructor
  · linarith
  · linarith

theorem reachable_ref {α : Type} (A : ArrayType α) (V : ArrayView α)
    (h : ArrayView.Reachable A V) : V.m_ref = A := by
  induction h with
  | full => rfl
  | index P W i _ hW ih =>
    obtain ⟨_, hWd⟩ := operatorIndex_inv P W i hW
    rw [hWd]
    exact ih

/-- The full view addresses live elements of its owner only. -/
theorem full_inside_owner {α : Type} (A : ArrayType α) :
    ArrayView.InsideOwner A (ArrayView.ofArray A) := by
  refine ⟨le_refl 0, fun c hc => ?_⟩
  have hdot : Stride.dot c (ArrayView.ofArray A).stride (ArrayView.ofArray A).ndim
      = Shape.rowMajorPosition A.shape c := dot_ofShape A.shape c
  obtain ⟨b0, b1⟩ := rowMajorPosition_bound A.shape c hc
  rw [hdot]
  show 0 ≤ 0 + _ ∧ 0 + _ < _
  constructor
  · linarith
  · linarith

theorem reachable_inside_owner {α : Type} (A : ArrayType α) (hA : ∀ x ∈ A.shape, 1 ≤ x)
    (V : ArrayView α) (hV : ArrayView.Reachable A V) : ArrayView.InsideOwner A V := by
  induction hV with
  | full => exact full_inside_owner A
  | index P W i hP hW _ => exact derived_inside_owner A hA P W i hP hW

/-- The position that `scalar(k)` reads on a view whose lengths are all at
least 1: the strided position of the valid multi-index with row-major
position `k`. -/
theorem scalar_reads {α : Type} (V : ArrayView α) (hs : ∀ x ∈ V.m_shape, 1 ≤ x)
    (k : Int) (hk0 : 0 ≤ k) (hk1 : k < V.m_shape.prod) :
    ∃ c, Shape.validCoord V.m_shape c ∧ Shape.rowMajorPosition V.m_shape c = k ∧
      V.scalar k
        = V.m_ref.scalar (V.m_offset + Stride.dot c V.m_stride V.m_shape.length) := by
  by_cases hn : 1 ≤ V.m_shape.length
  · obtain ⟨hl, hd⟩ := scalarCoord_digits V hs hn k hk0
    obtain ⟨hv, hp⟩ := digits_position V.m_shape _ hs k hk0 hk1 hl hd
    exact ⟨_, hv, hp, scalar_spec V hs hn k hk0 hk1 _ hv hp⟩
  · have hnil : V.m_shape = [] := List.eq_nil_of_length_eq_zero (by omega)
    have hnd : V.ndim = 0 := by simp [ArrayView.ndim, Shape.ndim, hnil]
    rw [hnil] at hk1
    have hk : k = 0 := by simp at hk1; omega
    refine ⟨[], ?_, ?_, ?_⟩
    · rw [hnil]; exact ⟨rfl, fun i hi => absurd hi (by simp)⟩
    · rw [hnil, hk]; rfl
    · simp [ArrayView.scalar, hnd, hnil, Stride.dot]

/-- C8: for every array `A` whose lengths are all at least 1 and every view
`V` reachable from `ArrayView(A)` by zero or more successful `operator[]`
calls: `V` reads from `A`, its offset is not negative, and for every valid
multi-index `c` the position `offset + sum_i c_i * stride[i]` lies in
`[0, prod A.shape)`; these are the positions that `scalar(k)` reads for
`0 ≤ k < prod V.shape` and that `eval()` copies from. -/
theorem C8_addressing_inside_owner {α : Type} [Inhabited α] (A : ArrayType α)
    (hA : ∀ x ∈ A.shape, 1 ≤ x) (V : ArrayView α) (hV : ArrayView.Reachable A V) :
    V.m_ref = A ∧ 0 ≤ V.offset ∧
    (∀ c, Shape.validCoord V.shape c →
      0 ≤ V.offset + Stride.dot c V.stride V.ndim ∧
        V.offset + Stride.dot c V.stride V.ndim < A.shape.prod) ∧
    (∀ k, 0 ≤ k → k < V.shape.prod →
      ∃ c, Shape.validCoord V.shape c ∧ Shape.rowMajorPosition V.shape c = k ∧
        V.scalar k = A.scalar (V.offset + Stride.dot c V.stride V.ndim)) ∧
    (∀ fuel, V.shape.prod.toNat ≤ fuel →
      ∃ res, V.eval fuel = some res ∧
        ∀ c, Shape.validCoord V.shape c →
          res.storage (Shape.rowMajorPosition V.shape c)
            = A.scalar (V.offset + Stride.dot c V.stride V.ndim)) := by
  obtain ⟨i0, i1⟩ := reachable_inside_owner A hA V hV
  have href := reachable_ref A V hV
  have hs := (reachable_block A hA V hV).1
  refine ⟨href, i0, i1, fun k hk0 hk1 => ?_, fun fuel hf => ?_⟩
  · obtain ⟨c, c1, c2, c3⟩ := scalar_reads V hs k hk0 hk1
    rw [href] at c3
    exact ⟨c, c1, c2, c3⟩
  · obtain ⟨res, r1, _, r3⟩ := eval_spec V hs fuel hf
    refine ⟨res, r1, fun c hc => ?_⟩
    have := r3 c hc
    rw [href] at this
    exact this

/-- C8 at the 2 x 3 array: the full view (zero calls, stride (3, 1)) with the
multi-index (1, 2) addresses position 5, and the row view `ArrayView(A)[1]`
with the multi-index (2) addresses position 5 as well; both are below the
number 6 of stored elements. -/
theorem C8_addressing_inside_owner_witness :
    (∀ x ∈ exampleArray.shape, 1 ≤ x) ∧
    ArrayView.Reachable exampleArray (ArrayView.ofArray exampleArray) ∧
    ArrayView.Reachable exampleArray ((ArrayView.ofArray exampleArray).derived 1) ∧
    (∀ c, Shape.validCoord (ArrayView.ofArray exampleArray).shape c →
      0 ≤ (ArrayView.ofArray exampleArray).offset
          + Stride.dot c (ArrayView.ofArray exampleArray).stride
              (ArrayView.ofArray exampleArray).ndim ∧
        (ArrayView.ofArray exampleArray).offset
          + Stride.dot c (ArrayView.ofArray exampleArray).stride
              (ArrayView.ofArray exampleArray).ndim < exampleArray.shape.prod) ∧
    (∀ c, Shape.validCoord ((ArrayView.ofArray exampleArray).derived 1).shape c →
      0 ≤ ((ArrayView.ofArray exampleArray).derived 1).offset
          + Stride.dot c ((ArrayView.ofArray exampleArray).derived 1).stride
              ((ArrayView.ofArray exampleArray).derived 1).ndim ∧
        ((ArrayView.ofArray exampleArray).derived 1).offset
          + Stride.dot c ((ArrayView.ofArray exampleArray).derived 1).stride
              ((ArrayView.ofArray exampleArray).derived 1).ndim
            < exampleArray.shape.prod) ∧
    (ArrayView.ofArray exampleArray).offset
      + Stride.dot [1, 2] (ArrayView.ofArray exampleArray).stride
          (ArrayView.ofArray exampleArray).ndim = 5 ∧
    ((ArrayView.ofArray exampleArray).derived 1).offset
      + Stride.dot [2] ((ArrayView.ofArray exampleArray).derived 1).stride
          ((ArrayView.ofArray exampleArray).derived 1).ndim = 5 ∧
    exampleArray.shape.prod = 6 :=
  ⟨by decide, ArrayView.Reachable.full,
    ArrayView.Reachable.index (ArrayView.ofArray exampleArray) _ 1
      ArrayView.Reachable.full rfl,
    (C8_addressing_inside_owner exampleArray (by decide) (ArrayView.ofArray exampleArray)
      ArrayView.Reachable.full).2.2.1,
    (C8_addressing_inside_owner exampleArray (by decide)
      ((ArrayView.ofArray exampleArray).derived 1)
      (ArrayView.Reachable.index (ArrayView.ofArray exampleArray) _ 1
        ArrayView.Reachable.full rfl)).2.2.1,
    by decide, by decide, by decide⟩

end librapid

namespace ndarray

/-! ## The stores of an extent -/

theorem storeLoop_spec (T : IntegralType) (src srcAlt : Nat → Int) (n : Nat)
    (e a : Store) :
    (∀ k, (basic_extent.storeLoop T src srcAlt n e a).1 k
        = if k < n then T.convert (src k) else e k) ∧
    (∀ k, (basic_extent.storeLoop T src srcAlt n e a).2 k
        = if k < n then T.convert (srcAlt k) else a k) := by
  induction n with
  | zero => simp [basic_extent.storeLoop]
  | succ n ih =>
    have hstep : basic_extent.storeLoop T src srcAlt (n + 1) e a
        = (Store.write (basic_extent.storeLoop T src srcAlt n e a).1 n (T.convert (src n)),
           Store.write (basic_extent.storeLoop T src srcAlt n e a).2 n
            (T.convert (srcAlt n))) := by
      simp [basic_extent.storeLoop, List.range_succ, List.foldl_append]
    rw [hstep]
    constructor
    · intro k
      simp only [Store.write]
      by_cases hk : k = n
      · simp [hk]
      · rw [if_neg hk, ih.1 k]
        by_cases h2 : k < n
        · simp [h2, Nat.lt_succ_of_lt h2]
        · have : ¬ k < n + 1 := by omega
          simp [h2, this]
    · intro k
      simp only [Store.write]
      by_cases hk : k = n
      · simp [hk]
      · rw [if_neg hk, ih.2 k]
        by_cases h2 : k < n
        · simp [h2, Nat.lt_succ_of_lt h2]
        · have : ¬ k < n + 1 := by omega
          simp [h2, this]

theorem anyBelow_iff (vals : Store) (n : Nat) (bound : Int) :
    math.anyBelow vals n bound = true ↔ ∃ i, i < n ∧ vals i < bound := by
  simp [math.anyBelow]

theorem convert_one (T : IntegralType) : T.convert 1 = 1 := by
  have hb := T.two_le_bits
  have hpow : (2 : Nat) ^ T.bits = 4 * 2 ^ (T.bits - 2) := by
    have : T.bits = 2 + (T.bits - 2) := by omega
    conv_lhs => rw [this, pow_add]
    norm_num
  have hm : T.modulus = 4 * ((2 ^ (T.bits - 2) : Nat) : Int) := by
    unfold IntegralType.modulus
    rw [hpow]; push_cast; ring
  have hq : (1 : Int) ≤ ((2 ^ (T.bits - 2) : Nat) : Int) := by
    have : 1 ≤ 2 ^ (T.bits - 2) := Nat.one_le_two_pow
    exact_mod_cast this
  unfold IntegralType.convert
  rw [hm]
  by_cases hsg : T.isSigned = true
  · rw [if_pos hsg]
    have hhalf : 4 * ((2 ^ (T.bits - 2) : Nat) : Int) / 2
        = 2 * ((2 ^ (T.bits - 2) : Nat) : Int) := by omega
    rw [hhalf, Int.emod_eq_of_lt (by omega) (by omega)]
    ring
  · rw [if_neg hsg]
    exact Int.emod_eq_of_lt (by omega) (by omega)

/-! ## The vector constructor -/

theorem ofVector_long (T : IntegralType) (vals : List Int)
    (h : vals.length > ND_MAX_DIMS) :
    basic_extent.ofVector T vals = Except.ok { m_dims := ND_MAX_DIMS + 1 } := by
  unfold basic_extent.ofVector
  rw [if_pos h]

/-- The vector constructor throws exactly when one of the lengths, converted
to the element type of the extent, is below 1. -/
theorem ofVector_error_iff (T : IntegralType) (vals : List Int)
    (h : vals.length ≤ ND_MAX_DIMS) :
    basic_extent.ofVector T vals = Except.error ExtentError.domain_error
      ↔ ∃ x, x ∈ vals ∧ T.convert x < 1 := by
  unfold basic_extent.ofVector
  rw [if_neg (by omega)]
  have hst := (storeLoop_spec T (fun i => vals.getD i 0)
    (fun i => vals.getD (vals.length - i - 1) 0) vals.length Store.zero Store.zero).1
  constructor
  · intro he
    by_cases hb : math.anyBelow (basic_extent.storeLoop T (fun i => vals.getD i 0)
        (fun i => vals.getD (vals.length - i - 1) 0) vals.length Store.zero Store.zero).1
        vals.length 1 = true
    · obtain ⟨i, hi, hlt⟩ := (anyBelow_iff _ _ _).mp hb
      rw [hst i, if_pos hi] at hlt
      refine ⟨vals.getD i 0, ?_, hlt⟩
      rw [List.getD_eq_getElem?_getD, List.getElem?_eq_getElem hi]
      exact List.getElem_mem _
    · rw [if_neg hb] at he
      cases he
  · rintro ⟨x, hx, hlt⟩
    obtain ⟨i, hi, hxi⟩ := List.getElem_of_mem hx
    have hb : math.anyBelow (basic_extent.storeLoop T (fun i => vals.getD i 0)
        (fun i => vals.getD (vals.length - i - 1) 0) vals.length Store.zero Store.zero).1
        vals.length 1 = true := by
      rw [anyBelow_iff]
      refine ⟨i, hi, ?_⟩
      rw [hst i, if_pos hi]
      simp only [List.getD_eq_getElem?_getD, List.getElem?_eq_getElem hi, Option.getD_some]
      rw [hxi]; exact hlt
    rw [if_pos hb]

/-- The extent that the vector constructor builds from lengths that are all
at least 1 once converted. -/
theorem ofVector_ok (T : IntegralType) (vals : List Int)
    (h : vals.length ≤ ND_MAX_DIMS) (hv : ∀ x, x ∈ vals → 1 ≤ T.convert x) :
    ∃ E, basic_extent.ofVector T vals = Except.ok E ∧ E.m_dims = vals.length ∧
      (∀ k, E.m_extent k = if k < vals.length then T.convert (vals.getD k 0) else 0) ∧
      (∀ k, E.m_extent_alt k
        = if k < vals.length then T.convert (vals.getD (vals.length - k - 1) 0) else 0) := by
  have hst := storeLoop_spec T (fun i => vals.getD i 0)
    (fun i => vals.getD (vals.length - i - 1) 0) vals.length Store.zero Store.zero
  have hb : math.anyBelow (basic_extent.storeLoop T (fun i => vals.getD i 0)
      (fun i => vals.getD (vals.length - i - 1) 0) vals.length Store.zero Store.zero).1
      vals.length 1 = false := by
    rw [Bool.eq_false_iff]
    intro hcon
    obtain ⟨i, hi, hlt⟩ := (anyBelow_iff _ _ _).mp hcon
    rw [hst.1 i, if_pos hi] at hlt
    have := hv (vals.getD i 0) (by
      rw [List.getD_eq_getElem?_getD, List.getElem?_eq_getElem hi]
      exact List.getElem_mem _)
    omega
  refine ⟨basic_extent.mk
      (basic_extent.storeLoop T (fun i => vals.getD i 0)
        (fun i => vals.getD (vals.length - i - 1) 0) vals.length Store.zero Store.zero).1
      (basic_extent.storeLoop T (fun i => vals.getD i 0)
        (fun i => vals.getD (vals.length - i - 1) 0) vals.length Store.zero Store.zero).2
      vals.length, ?_, rfl, fun k => ?_, fun k => ?_⟩
  · unfold basic_extent.ofVector
    rw [if_neg (by omega), if_neg (by rw [hb]; exact Bool.false_ne_true)]
  · simpa [Store.zero] using hst.1 k
  · simpa [Store.zero] using hst.2 k

theorem lengths_eq_of_store {T : IntegralType} (E : basic_extent T) (L : List Int)
    (hd : E.m_dims = L.length) (hs : ∀ k, k < L.length → E.m_extent k = L.getD k 0) :
    E.lengths = L := by
  unfold basic_extent.lengths
  apply List.ext_getElem
  · simp [hd]
  · intro i h1 h2
    simp only [List.getElem_map, List.getElem_range]
    rw [hs i h2, List.getD_eq_getElem?_getD, List.getElem?_eq_getElem h2]
    rfl

theorem operatorIndex_lt {T : IntegralType} (E : basic_extent T) (i : Nat)
    (h : i < E.m_dims) : E.operatorIndex i = Except.ok (E.m_extent i) := by
  unfold basic_extent.operatorIndex
  rw [if_neg (by omega)]

theorem operatorIndex_ge {T : IntegralType} (E : basic_extent T) (i : Nat)
    (h : E.m_dims ≤ i) :
    E.operatorIndex i = Except.error (ExtentError.out_of_range i E.m_dims) := by
  unfold basic_extent.operatorIndex
  rw [if_pos (Or.inr h)]

end ndarray

namespace librapid

/-- C11: the view built from an array `A` has the shape of `A`, the rank of
that shape and offset 0, and its stored stride is the shape of `A` converted
to the stride type. -/
theorem C11_constructor_members {α : Type} (A : ArrayType α) :
    (ArrayView.ofArray A).shape = A.shape ∧
    (ArrayView.ofArray A).ndim = Shape.ndim A.shape ∧
    (ArrayView.ofArray A).offset = 0 ∧
    (ArrayView.ofArray A).stride = StrideType.ofShapeValue A.shape :=
  ⟨rfl, rfl, rfl, rfl⟩

end librapid

namespace ndarray

theorem nd_int_modulus : nd_int.modulus = 18446744073709551616 := by
  decide

theorem nd_int_convert (x : Int) : nd_int.convert x = x % 18446744073709551616 := by
  unfold IntegralType.convert
  rw [if_neg (by decide), nd_int_modulus]

theorem axisArgument_nonneg (axis : Int) (h0 : 0 ≤ axis)
    (h1 : axis < 18446744073709551616) : axisArgument axis = axis.toNat := by
  unfold axisArgument
  rw [nd_int_convert, Int.emod_eq_of_lt h0 h1]

theorem axisArgument_neg (axis : Int) (h0 : axis < 0)
    (h1 : -9223372036854775808 ≤ axis) :
    9223372036854775808 ≤ axisArgument axis := by
  unfold axisArgument
  rw [nd_int_convert]
  omega

/-- C12: from a list `L` of `n ≤ ND_MAX_DIMS` lengths, each at least 1 and a
value of the element type of the extent, the list constructor (vector and
initializer list) and the pointer-and-dims constructor over a buffer holding
`L` build an extent with `ndim() == n` and `elementAt(i) == L[i]` for every
`i < n`. -/
theorem C12_constructed_lengths (T : IntegralType) (L : List Int)
    (hn : L.length ≤ ND_MAX_DIMS) (hL : ∀ x, x ∈ L → 1 ≤ x ∧ T.represents x) :
    (∃ E, basic_extent.ofVector T L = Except.ok E ∧
      basic_extent.ofInitializerList T L = Except.ok E ∧ E.ndim = L.length ∧
      ∀ i, i < L.length → E.operatorIndex i = Except.ok (L.getD i 0)) ∧
    ((basic_extent.ofPointer T L L.length).ndim = L.length ∧
      ∀ i, i < L.length →
        (basic_extent.ofPointer T L L.length).operatorIndex i = Except.ok (L.getD i 0)) := by
  have hrep : ∀ i, i < L.length → T.convert (L.getD i 0) = L.getD i 0 := by
    intro i hi
    exact (hL _ (by
      rw [List.getD_eq_getElem?_getD, List.getElem?_eq_getElem hi]
      exact List.getElem_mem _)).2
  constructor
  · obtain ⟨E, h1, h2, h3, _⟩ := ofVector_ok T L hn
      (fun x hx => by rw [(hL x hx).2]; exact (hL x hx).1)
    refine ⟨E, h1, h1, h2, fun i hi => ?_⟩
    rw [operatorIndex_lt E i (by rw [h2]; exact hi), h3 i, if_pos hi, hrep i hi]
  · have hnd : (basic_extent.ofPointer T L L.length).m_dims = L.length := by
      unfold basic_extent.ofPointer
      rw [if_neg (by omega)]
    refine ⟨hnd, fun i hi => ?_⟩
    rw [operatorIndex_lt _ i (by rw [hnd]; exact hi)]
    unfold basic_extent.ofPointer
    rw [if_neg (by omega)]
    simp only
    rw [(storeLoop_spec T _ _ L.length Store.zero Store.zero).1 i, if_pos hi, hrep i hi]

/-- C12 at the list {2, 3, 4}: `ndim() == 3`, `elementAt(0) == 2`,
`elementAt(2) == 4`. -/
theorem C12_constructed_lengths_witness :
    ([2, 3, 4] : List Int).length ≤ ND_MAX_DIMS ∧
    (∀ x, x ∈ ([2, 3, 4] : List Int) → 1 ≤ x ∧ nd_int.represents x) ∧
    ((∃ E, basic_extent.ofVector nd_int [2, 3, 4] = Except.ok E ∧
        basic_extent.ofInitializerList nd_int [2, 3, 4] = Except.ok E ∧
        E.ndim = ([2, 3, 4] : List Int).length ∧
        ∀ i, i < ([2, 3, 4] : List Int).length →
          E.operatorIndex i = Except.ok (([2, 3, 4] : List Int).getD i 0)) ∧
      ((basic_extent.ofPointer nd_int [2, 3, 4] ([2, 3, 4] : List Int).length).ndim
          = ([2, 3, 4] : List Int).length ∧
        ∀ i, i < ([2, 3, 4] : List Int).length →
          (basic_extent.ofPointer nd_int [2, 3, 4]
            ([2, 3, 4] : List Int).length).operatorIndex i
              = Except.ok (([2, 3, 4] : List Int).getD i 0))) ∧
    (basic_extent.ofInitializerList nd_int [2, 3, 4]).map
      (fun E => (E.ndim, E.operatorIndex 0, E.operatorIndex 2))
      = Except.ok (3, Except.ok 2, Except.ok 4) :=
  ⟨by decide, by decide,
    C12_constructed_lengths nd_int [2, 3, 4] (by decide) (by decide), by decide⟩

/-- C13, evaluated on the one-element list {-1} of a signed element type:
`extent`, whose element type is the unsigned `nd_int`, is constructed without
an error and holds the length 2^64 - 1; with the signed element type
`long long` the same list, and with `nd_int` the list {0}, raise the domain
error. -/
theorem C13_negative_length_example :
    (basic_extent.ofVector nd_int [-1]).map (fun E => (E.ndim, E.lengths))
      = Except.ok (1, [18446744073709551615]) ∧
    (basic_extent.ofVector long_long [-1]).map (fun E => (E.ndim, E.lengths))
      = Except.error ExtentError.domain_error ∧
    (basic_extent.ofVector nd_int [0]).map (fun E => (E.ndim, E.lengths))
      = Except.error ExtentError.domain_error := by
  decide

/-- C14: from a list with more than `ND_MAX_DIMS` entries, whatever their
values, the constructor raises no error and builds an extent with
`ndim() == ND_MAX_DIMS + 1` and `is_valid() == false`. -/
theorem C14_too_many_lengths (T : IntegralType) (L : List Int)
    (h : L.length > ND_MAX_DIMS) :
    ∃ E, basic_extent.ofVector T L = Except.ok E ∧
      basic_extent.ofInitializerList T L = Except.ok E ∧
      E.ndim = ND_MAX_DIMS + 1 ∧ E.is_valid = false :=
  ⟨basic_extent.mk Store.zero Store.zero (ND_MAX_DIMS + 1), ofVector_long T L h,
    ofVector_long T L h, rfl, rfl⟩

/-- C14 at a list of 51 entries, all of them 0. -/
theorem C14_too_many_lengths_witness :
    (List.replicate 51 (0 : Int)).length > ND_MAX_DIMS ∧
    ∃ E, basic_extent.ofVector nd_int (List.replicate 51 0) = Except.ok E ∧
      basic_extent.ofInitializerList nd_int (List.replicate 51 0) = Except.ok E ∧
      E.ndim = ND_MAX_DIMS + 1 ∧ E.is_valid = false :=
  ⟨by decide, C14_too_many_lengths nd_int (List.replicate 51 0) (by decide)⟩

/-- C15: on an extent with `ndim() ≤ ND_MAX_DIMS` and an axis given as an
integer of a 64-bit integral type, `operator[]` (either overload) and
`__py_getitem` fail if and only if the axis is below 0 or at least `ndim()`,
the failure is the out-of-range error, and otherwise they return the forward
length stored for the axis. -/
theorem C15_element_access {T : IntegralType} (E : basic_extent T)
    (hE : E.ndim ≤ ND_MAX_DIMS) (axis : Int)
    (h1 : -9223372036854775808 ≤ axis) (h2 : axis < 18446744073709551616) :
    ((∃ e, E.operatorIndex (axisArgument axis) = Except.error e)
      ↔ (axis < 0 ∨ (E.ndim : Int) ≤ axis)) ∧
    (∀ e, E.operatorIndex (axisArgument axis) = Except.error e →
      e = ExtentError.out_of_range (axisArgument axis) E.ndim) ∧
    (0 ≤ axis → axis < (E.ndim : Int) →
      E.operatorIndex (axisArgument axis) = Except.ok (E.m_extent axis.toNat)) ∧
    E.__py_getitem (axisArgument axis) = E.operatorIndex (axisArgument axis) := by
  have hmax : E.m_dims ≤ 50 := hE
  by_cases hin : 0 ≤ axis ∧ axis < (E.ndim : Int)
  · have harg := axisArgument_nonneg axis hin.1 h2
    have hlt : axis.toNat < E.m_dims := by
      have : axis < (E.m_dims : Int) := hin.2
      omega
    have hok := operatorIndex_lt E axis.toNat hlt
    rw [harg]
    refine ⟨⟨?_, ?_⟩, ?_, fun _ _ => hok, rfl⟩
    · rintro ⟨e, he⟩
      rw [hok] at he
      cases he
    · intro h
      exfalso
      omega
    · intro e he
      rw [hok] at he
      cases he
  · have hge : E.m_dims ≤ axisArgument axis := by
      by_cases hneg : axis < 0
      · have := axisArgument_neg axis hneg h1
        omega
      · rw [axisArgument_nonneg axis (by omega) h2]
        have : ¬ axis < (E.m_dims : Int) := fun hc => hin ⟨by omega, hc⟩
        omega
    have herr := operatorIndex_ge E (axisArgument axis) hge
    refine ⟨⟨fun _ => ?_, fun _ => ⟨_, herr⟩⟩, ?_, ?_, rfl⟩
    · by_contra hcon
      exact hin ⟨by omega, by omega⟩
    · intro e he
      rw [herr] at he
      injection he with he
      exact he.symm
    · intro ha hb
      exact absurd ⟨ha, hb⟩ hin

end ndarray

namespace ndarray

/-- C15 at the extent built from the buffer {2, 3, 4}: axis -1 fails with
the out-of-range error and axis 1 returns the length 3. -/
theorem C15_element_access_witness :
    (basic_extent.ofPointer nd_int [2, 3, 4] 3).ndim ≤ ND_MAX_DIMS ∧
    ((∃ e, (basic_extent.ofPointer nd_int [2, 3, 4] 3).operatorIndex (axisArgument (-1))
        = Except.error e)
      ↔ ((-1 : Int) < 0 ∨ ((basic_extent.ofPointer nd_int [2, 3, 4] 3).ndim : Int) ≤ -1)) ∧
    (basic_extent.ofPointer nd_int [2, 3, 4] 3).operatorIndex (axisArgument 1)
      = Except.ok ((basic_extent.ofPointer nd_int [2, 3, 4] 3).m_extent (1 : Int).toNat) ∧
    (basic_extent.ofPointer nd_int [2, 3, 4] 3).operatorIndex (axisArgument 1)
      = Except.ok 3 :=
  ⟨by decide,
    (C15_element_access (basic_extent.ofPointer nd_int [2, 3, 4] 3) (by decide) (-1)
      (by decide) (by decide)).1,
    (C15_element_access (basic_extent.ofPointer nd_int [2, 3, 4] 3) (by decide) 1
      (by decide) (by decide)).2.2.1 (by decide) (by decide),
    by decide⟩

/-! ## `compressed` -/

theorem ofVector_lengths (T : IntegralType) (L : List Int)
    (hn : L.length ≤ ND_MAX_DIMS) (hL : ∀ x, x ∈ L → 1 ≤ x ∧ T.represents x) :
    ∃ E, basic_extent.ofVector T L = Except.ok E ∧ E.m_dims = L.length ∧
      E.lengths = L ∧
      (∀ k, k < L.length → E.m_extent k = L.getD k 0) ∧
      (∀ k, k < L.length → E.m_extent_alt k = L.getD (L.length - k - 1) 0) := by
  have hrep : ∀ i, i < L.length → T.convert (L.getD i 0) = L.getD i 0 := by
    intro i hi
    exact (hL _ (by
      rw [List.getD_eq_getElem?_getD, List.getElem?_eq_getElem hi]
      exact List.getElem_mem _)).2
  obtain ⟨E, h1, h2, h3, h4⟩ := ofVector_ok T L hn
    (fun x hx => by rw [(hL x hx).2]; exact (hL x hx).1)
  have hs : ∀ k, k < L.length → E.m_extent k = L.getD k 0 := by
    intro k hk
    rw [h3 k, if_pos hk, hrep k hk]
  refine ⟨E, h1, h2, lengths_eq_of_store E L h2 hs, hs, ?_⟩
  intro k hk
  rw [h4 k, if_pos hk, hrep (L.length - k - 1) (by omega)]

theorem foldl_collect (f : Nat → Int) (l : List Nat) (acc : List Int) :
    l.foldl (fun (res : List Int) i => if f i ≠ 1 then res ++ [f i] else res) acc
      = acc ++ (l.map f).filter (fun x => decide (x ≠ 1)) := by
  induction l generalizing acc with
  | nil => simp
  | cons i l ih =>
    rw [List.foldl_cons, ih, List.map_cons]
    by_cases h : f i ≠ 1
    · rw [if_pos h, List.filter_cons_of_pos (by simpa using h)]
      simp
    · rw [if_neg h, List.filter_cons_of_neg (by simpa using h)]

theorem prod_eq_one_of_all_one (l : List Int) (h : ∀ x, x ∈ l → x = 1) : l.prod = 1 := by
  induction l with
  | nil => rfl
  | cons a l ih =>
    rw [List.prod_cons, h a (List.mem_cons_self _ _),
      ih (fun x hx => h x (List.mem_cons_of_mem _ hx))]
    rfl

/-- The two cases of `compressed()` on an extent whose lengths are all at
least 1. -/
theorem compressed_spec {T : IntegralType} (E : basic_extent T)
    (hE : E.ndim ≤ ND_MAX_DIMS) (hlen : ∀ x, x ∈ E.lengths → 1 ≤ x ∧ T.represents x) :
    (E.lengths.prod = 1 →
      ∃ C, E.compressed = Except.ok C ∧ C.lengths = [1] ∧ C.m_dims = 1 ∧
        C.m_extent 0 = 1 ∧ C.m_extent_alt 0 = 1) ∧
    (E.lengths.prod ≠ 1 →
      ∃ C, E.compressed = Except.ok C ∧
        C.lengths = E.lengths.filter (fun x => decide (x ≠ 1)) ∧
        C.m_dims = C.lengths.length ∧
        (∀ k, k < C.m_dims → C.m_extent k = C.lengths.getD k 0) ∧
        (∀ k, k < C.m_dims → C.m_extent_alt k = C.lengths.getD (C.m_dims - k - 1) 0)) := by
  have hprod : math.product E.m_extent E.m_dims = E.lengths.prod := rfl
  constructor
  · intro h1
    obtain ⟨C, c1, c2, c3, c4, c5⟩ := ofVector_lengths T [1] (by decide)
      (fun x hx => by
        have : x = 1 := by simpa using hx
        subst this
        exact ⟨le_refl 1, convert_one T⟩)
    refine ⟨C, ?_, c3, c2, by simpa using c4 0 (by simp), by simpa using c5 0 (by simp)⟩
    unfold basic_extent.compressed
    rw [hprod, if_pos h1]
    exact c1
  · intro h1
    have hres : (List.range E.m_dims).foldl
        (fun (res : List Int) i => if E.m_extent i ≠ 1 then res ++ [E.m_extent i] else res) []
        = E.lengths.filter (fun x => decide (x ≠ 1)) := by
      rw [foldl_collect]; rfl
    have hlenle : (E.lengths.filter (fun x => decide (x ≠ 1))).length ≤ ND_MAX_DIMS := by
      have h2 : (E.lengths.filter (fun x => decide (x ≠ 1))).length ≤ E.lengths.length :=
        List.length_filter_le _ _
      have h3 : E.lengths.length = E.m_dims := by simp [basic_extent.lengths]
      have h4 : E.m_dims ≤ ND_MAX_DIMS := hE
      omega
    obtain ⟨C, c1, c2, c3, c4, c5⟩ := ofVector_lengths T
      (E.lengths.filter (fun x => decide (x ≠ 1))) hlenle
      (fun x hx => hlen x (List.mem_of_mem_filter hx))
    refine ⟨C, ?_, c3, by rw [c3]; exact c2, ?_, ?_⟩
    · unfold basic_extent.compressed
      rw [hprod, if_neg h1]
      simp only
      rw [hres]
      exact c1
    · intro k hk
      rw [c3]
      exact c4 k (by rw [← c2]; exact hk)
    · intro k hk
      rw [c3, c2]
      exact c5 k (by rw [← c2]; exact hk)

/-- C16: on an extent of rank at most `ND_MAX_DIMS` whose lengths are all at
least 1, `compressed()` is the rank-1 extent {1} if the product of the lengths
is 1 (the rank-0 extent included), and otherwise exactly the lengths that
differ from 1, in axis order; so the result holds no length 1 unless the
product is 1, and it never has rank 0. -/
theorem C16_compressed {T : IntegralType} (E : basic_extent T)
    (hE : E.ndim ≤ ND_MAX_DIMS) (hlen : ∀ x, x ∈ E.lengths → 1 ≤ x ∧ T.represents x) :
    (E.lengths.prod = 1 →
      ∃ C, E.compressed = Except.ok C ∧ C.ndim = 1 ∧ C.lengths = [1]) ∧
    (E.lengths.prod ≠ 1 →
      ∃ C, E.compressed = Except.ok C ∧
        C.lengths = E.lengths.filter (fun x => decide (x ≠ 1))) ∧
    (∃ C, E.compressed = Except.ok C ∧ 1 ≤ C.ndim ∧
      (1 ∈ C.lengths → E.lengths.prod = 1)) := by
  obtain ⟨hone, hmany⟩ := compressed_spec E hE hlen
  refine ⟨?_, ?_, ?_⟩
  · intro h
    obtain ⟨C, c1, c2, c3, _⟩ := hone h
    exact ⟨C, c1, c3, c2⟩
  · intro h
    obtain ⟨C, c1, c2, _⟩ := hmany h
    exact ⟨C, c1, c2⟩
  · by_cases h : E.lengths.prod = 1
    · obtain ⟨C, c1, _, c3, _⟩ := hone h
      exact ⟨C, c1, by rw [basic_extent.ndim, c3], fun _ => h⟩
    · obtain ⟨C, c1, c2, c3, _⟩ := hmany h
      refine ⟨C, c1, ?_, ?_⟩
      · rw [basic_extent.ndim, c3, c2]
        by_contra hcon
        have hnil : E.lengths.filter (fun x => decide (x ≠ 1)) = [] :=
          List.eq_nil_of_length_eq_zero (by omega)
        apply h
        apply prod_eq_one_of_all_one
        intro x hx
        by_contra hx1
        have : x ∈ E.lengths.filter (fun x => decide (x ≠ 1)) :=
          List.mem_filter.mpr ⟨hx, by simpa using hx1⟩
        rw [hnil] at this
        cases this
      · intro hmem
        rw [c2] at hmem
        have := (List.mem_filter.mp hmem).2
        simp at this

/-- C16 at the extent {1, 5, 1}: it compresses to {5}. -/
theorem C16_compressed_witness :
    (basic_extent.ofPointer nd_int [1, 5, 1] 3).ndim ≤ ND_MAX_DIMS ∧
    (∀ x, x ∈ (basic_extent.ofPointer nd_int [1, 5, 1] 3).lengths →
      1 ≤ x ∧ nd_int.represents x) ∧
    (basic_extent.ofPointer nd_int [1, 5, 1] 3).lengths.prod ≠ 1 ∧
    (∃ C, (basic_extent.ofPointer nd_int [1, 5, 1] 3).compressed = Except.ok C ∧
      C.lengths = (basic_extent.ofPointer nd_int [1, 5, 1] 3).lengths.filter
        (fun x => decide (x ≠ 1))) ∧
    ((basic_extent.ofInitializerList nd_int [1, 5, 1]).bind
      basic_extent.compressed).map (fun C => (C.ndim, C.lengths))
      = Except.ok (1, [5]) :=
  ⟨by decide, by decide, by decide,
    (C16_compressed (basic_extent.ofPointer nd_int [1, 5, 1] 3) (by decide)
      (by decide)).2.1 (by decide),
    by decide⟩

/-! ## `operator==` -/

theorem check_ptr_match_iff (a : Store) (n : Nat) (b : Store) (m : Nat) :
    utils.check_ptr_match a n b m = true ↔ n = m ∧ ∀ i, i < n → a i = b i := by
  simp [utils.check_ptr_match]

/-- C17: on extents of rank at most `ND_MAX_DIMS`, `E == F` holds if and only
if the ranks are equal and `elementAt(i)` agrees for every `i < ndim()`; `==`
is reflexive, symmetric and transitive. -/
theorem C17_equality {T : IntegralType} (E F G : basic_extent T)
    (_hE : E.ndim ≤ ND_MAX_DIMS) (_hF : F.ndim ≤ ND_MAX_DIMS)
    (_hG : G.ndim ≤ ND_MAX_DIMS) :
    (E.operatorEq F = true ↔
      E.ndim = F.ndim ∧ ∀ i, i < E.ndim → E.operatorIndex i = F.operatorIndex i) ∧
    E.operatorEq E = true ∧
    (E.operatorEq F = true → F.operatorEq E = true) ∧
    (E.operatorEq F = true → F.operatorEq G = true → E.operatorEq G = true) := by
  have key : ∀ X Y : basic_extent T, X.operatorEq Y = true ↔
      X.m_dims = Y.m_dims ∧ ∀ i, i < X.m_dims → X.m_extent i = Y.m_extent i :=
    fun X Y => check_ptr_match_iff _ _ _ _
  refine ⟨⟨fun h => ?_, fun h => ?_⟩, (key E E).mpr ⟨rfl, fun _ _ => rfl⟩,
    fun h => ?_, fun h h2 => ?_⟩
  · obtain ⟨hd, hv⟩ := (key E F).mp h
    refine ⟨hd, fun i hi => ?_⟩
    have hi' : i < E.m_dims := hi
    rw [operatorIndex_lt E i hi', operatorIndex_lt F i (by omega), hv i hi']
  · obtain ⟨hd, hv⟩ := h
    have hd' : E.m_dims = F.m_dims := hd
    refine (key E F).mpr ⟨hd', fun i hi => ?_⟩
    have := hv i hi
    rw [operatorIndex_lt E i hi, operatorIndex_lt F i (by omega)] at this
    injection this
  · obtain ⟨hd, hv⟩ := (key E F).mp h
    exact (key F E).mpr ⟨hd.symm, fun i hi => (hv i (by omega)).symm⟩
  · obtain ⟨hd, hv⟩ := (key E F).mp h
    obtain ⟨hd2, hv2⟩ := (key F G).mp h2
    exact (key E G).mpr
      ⟨hd.trans hd2, fun i hi => (hv i hi).trans (hv2 i (by omega))⟩

/-- C17 at the extents built from {2, 3, 4}, from the buffer {2, 3, 4} and
from {2, 3, 5}: the first two are equal, the third differs from them. -/
theorem C17_equality_witness :
    ((basic_extent.ofPointer nd_int [2, 3, 4] 3).ndim ≤ ND_MAX_DIMS ∧
      (basic_extent.ofPair nd_int [2, 3, 4] 3).ndim ≤ ND_MAX_DIMS ∧
      (basic_extent.ofPointer nd_int [2, 3, 5] 3).ndim ≤ ND_MAX_DIMS) ∧
    ((basic_extent.ofPointer nd_int [2, 3, 4] 3).operatorEq
        (basic_extent.ofPair nd_int [2, 3, 4] 3) = true ↔
      (basic_extent.ofPointer nd_int [2, 3, 4] 3).ndim
          = (basic_extent.ofPair nd_int [2, 3, 4] 3).ndim ∧
        ∀ i, i < (basic_extent.ofPointer nd_int [2, 3, 4] 3).ndim →
          (basic_extent.ofPointer nd_int [2, 3, 4] 3).operatorIndex i
            = (basic_extent.ofPair nd_int [2, 3, 4] 3).operatorIndex i) ∧
    (basic_extent.ofPointer nd_int [2, 3, 4] 3).operatorEq
      (basic_extent.ofPair nd_int [2, 3, 4] 3) = true ∧
    (basic_extent.ofPair nd_int [2, 3, 4] 3).operatorEq
      (basic_extent.ofPointer nd_int [2, 3, 5] 3) = false :=
  ⟨by decide,
    (C17_equality (basic_extent.ofPointer nd_int [2, 3, 4] 3)
      (basic_extent.ofPair nd_int [2, 3, 4] 3)
      (basic_extent.ofPointer nd_int [2, 3, 5] 3) (by decide) (by decide) (by decide)).1,
    by decide, by decide⟩

end ndarray

namespace ndarray

/-! ## `reshape` -/

theorem reshapeFold_spec (E : basic_extent nd_int) (l : List Nat) (hnd : l.Nodup) :
    ∀ (init : Store × Store × Nat),
      (∀ j (h : j < l.length),
        (l.foldl (fun st index =>
          (Store.write st.1 index (E.m_extent st.2.2),
            Store.write st.2.1 index (E.m_extent_alt st.2.2), st.2.2 + 1)) init).1
            (l.get ⟨j, h⟩) = E.m_extent (init.2.2 + j) ∧
        (l.foldl (fun st index =>
          (Store.write st.1 index (E.m_extent st.2.2),
            Store.write st.2.1 index (E.m_extent_alt st.2.2), st.2.2 + 1)) init).2.1
            (l.get ⟨j, h⟩) = E.m_extent_alt (init.2.2 + j)) ∧
      (∀ k, k ∉ l →
        (l.foldl (fun st index =>
          (Store.write st.1 index (E.m_extent st.2.2),
            Store.write st.2.1 index (E.m_extent_alt st.2.2), st.2.2 + 1)) init).1 k
            = init.1 k ∧
        (l.foldl (fun st index =>
          (Store.write st.1 index (E.m_extent st.2.2),
            Store.write st.2.1 index (E.m_extent_alt st.2.2), st.2.2 + 1)) init).2.1 k
            = init.2.1 k) := by
  induction l with
  | nil =>
    intro init
    exact ⟨fun j h => absurd h (by simp), fun k _ => ⟨rfl, rfl⟩⟩
  | cons x xs ih =>
    intro init
    have hx : x ∉ xs := (List.nodup_cons.mp hnd).1
    obtain ⟨ih1, ih2⟩ := ih (List.nodup_cons.mp hnd).2
      (Store.write init.1 x (E.m_extent init.2.2),
        Store.write init.2.1 x (E.m_extent_alt init.2.2), init.2.2 + 1)
    rw [List.foldl_cons]
    constructor
    · intro j h
      cases j with
      | zero =>
        have := ih2 x hx
        simp only [List.get_eq_getElem, List.getElem_cons_zero, Nat.add_zero]
        rw [this.1, this.2]
        simp [Store.write]
      | succ j =>
        have := ih1 j (by simpa using h)
        simp only [List.get_eq_getElem, List.getElem_cons_succ] at this ⊢
        rw [this.1, this.2]
        constructor
        · congr 1; omega
        · congr 1; omega
    · intro k hk
      have hkx : k ≠ x := fun e => hk (by rw [e]; exact List.mem_cons_self _ _)
      have hkxs : k ∉ xs := fun e => hk (List.mem_cons_of_mem _ e)
      have := ih2 k hkxs
      rw [this.1, this.2]
      simp [Store.write, hkx]

/-- After `reshape(order)` with a permutation `order` of `0, ..., n - 1`,
both stores hold at position `order[i]` what they held at position `i`. -/
theorem reshape_spec (E : basic_extent nd_int) (order : List Nat)
    (hp : order.Perm (List.range E.m_dims)) :
    (E.reshape order).m_dims = E.m_dims ∧
    ∀ i (h : i < order.length),
      order.get ⟨i, h⟩ < E.m_dims ∧
      (E.reshape order).m_extent (order.get ⟨i, h⟩) = E.m_extent i ∧
      (E.reshape order).m_extent_alt (order.get ⟨i, h⟩) = E.m_extent_alt i := by
  have hnd : order.Nodup := hp.nodup_iff.mpr (List.nodup_range _)
  refine ⟨rfl, fun i h => ?_⟩
  have hlt : order.get ⟨i, h⟩ < E.m_dims := by
    have : order.get ⟨i, h⟩ ∈ List.range E.m_dims := hp.subset (List.get_mem _ _ _)
    exact List.mem_range.mp this
  have := (reshapeFold_spec E order hnd (Store.zero, Store.zero, 0)).1 i h
  simp only [Nat.zero_add] at this
  refine ⟨hlt, ?_, ?_⟩
  · simp only [basic_extent.reshape, basic_extent.reshapeLoop, Store.memcpy, if_pos hlt]
    exact this.1
  · simp only [basic_extent.reshape, basic_extent.reshapeLoop, Store.memcpy, if_pos hlt]
    exact this.2

/-- C18: on an extent of rank `n ≤ ND_MAX_DIMS` and a permutation `order` of
`0, ..., n - 1`, `reshape(order)` leaves `ndim()` unchanged, the new
`elementAt(order[i])` is the old `elementAt(i)` for every `i < n`, and the
new lengths are a rearrangement of the old ones. -/
theorem C18_reshape_permutes (E : basic_extent nd_int) (order : List Nat)
    (_hE : E.ndim ≤ ND_MAX_DIMS) (hp : order.Perm (List.range E.ndim)) :
    (E.reshape order).ndim = E.ndim ∧
    (∀ i, i < E.ndim →
      (E.reshape order).operatorIndex (order.getD i 0) = E.operatorIndex i) ∧
    (E.reshape order).lengths.Perm E.lengths := by
  have hlen : order.length = E.m_dims := by
    rw [hp.length_eq, List.length_range]; rfl
  obtain ⟨hd, hs⟩ := reshape_spec E order hp
  refine ⟨hd, fun i hi => ?_, ?_⟩
  · have h : i < order.length := by rw [hlen]; exact hi
    obtain ⟨h1, h2, _⟩ := hs i h
    have hget : order.getD i 0 = order.get ⟨i, h⟩ := by
      rw [List.getD_eq_getElem?_getD, List.getElem?_eq_getElem h]; rfl
    rw [hget, operatorIndex_lt _ _ (by rw [hd]; exact h1), h2, operatorIndex_lt E i hi]
  · have h1 : (E.reshape order).lengths = (List.range E.m_dims).map (E.reshape order).m_extent := by
      unfold basic_extent.lengths; rw [hd]
    have h2 : order.map (E.reshape order).m_extent = E.lengths := by
      apply List.ext_getElem
      · simp [basic_extent.lengths, hlen]
      · intro i hi1 hi2
        have h : i < order.length := by simpa using hi1
        simp only [List.getElem_map, basic_extent.lengths, List.getElem_range]
        exact (hs i h).2.1
    rw [h1, ← h2]
    exact (hp.map _).symm

/-- C18 at the extent {2, 3, 4} and the order {1, 0, 2}: the new lengths are
{3, 2, 4}. -/
theorem C18_reshape_permutes_witness :
    (basic_extent.ofPointer nd_int [2, 3, 4] 3).ndim ≤ ND_MAX_DIMS ∧
    ([1, 0, 2] : List Nat).Perm
      (List.range (basic_extent.ofPointer nd_int [2, 3, 4] 3).ndim) ∧
    (((basic_extent.ofPointer nd_int [2, 3, 4] 3).reshape [1, 0, 2]).ndim
        = (basic_extent.ofPointer nd_int [2, 3, 4] 3).ndim ∧
      (∀ i, i < (basic_extent.ofPointer nd_int [2, 3, 4] 3).ndim →
        ((basic_extent.ofPointer nd_int [2, 3, 4] 3).reshape [1, 0, 2]).operatorIndex
            (([1, 0, 2] : List Nat).getD i 0)
          = (basic_extent.ofPointer nd_int [2, 3, 4] 3).operatorIndex i) ∧
      ((basic_extent.ofPointer nd_int [2, 3, 4] 3).reshape [1, 0, 2]).lengths.Perm
        (basic_extent.ofPointer nd_int [2, 3, 4] 3).lengths) ∧
    ((basic_extent.ofPointer nd_int [2, 3, 4] 3).reshape [1, 0, 2]).lengths = [3, 2, 4] :=
  ⟨by decide, by decide,
    C18_reshape_permutes (basic_extent.ofPointer nd_int [2, 3, 4] 3) [1, 0, 2]
      (by decide) (by decide),
    by decide⟩

/-- C19, evaluated on the extent {2, 3, 4} and the order {1, 0, 2}: the
extent satisfies the mirror invariant before the call; afterwards the forward
lengths are {3, 2, 4} and the reversed store holds {3, 4, 2}, so
`operator()(0, false)` is 3 while `elementAt(2)` is 4, and the mirror
invariant no longer holds. -/
theorem C19_reshape_mirror_example :
    (basic_extent.ofInitializerList nd_int [2, 3, 4]).map
      (fun E => (decide E.mirrored, E.lengths))
      = Except.ok (true, [2, 3, 4]) ∧
    (basic_extent.ofInitializerList nd_int [2, 3, 4]).map
      (fun E =>
        ((E.reshape [1, 0, 2]).lengths,
          (List.range 3).map (fun i => (E.reshape [1, 0, 2]).operatorCall i false),
          (E.reshape [1, 0, 2]).operatorCall 0 false,
          (E.reshape [1, 0, 2]).operatorIndex 2,
          decide (E.reshape [1, 0, 2]).mirrored))
      = Except.ok ([3, 2, 4], [3, 4, 2], 3, Except.ok 4, false) := by
  decide

end ndarray

namespace ndarray

/-! ## The mirror invariant -/

theorem mirrored_iff {T : IntegralType} (E : basic_extent T) :
    E.mirrored ↔ ∀ i, i < E.m_dims → E.m_extent_alt i = E.m_extent (E.m_dims - 1 - i) := by
  unfold basic_extent.mirrored
  simp only [basic_extent.ndim]
  constructor
  · intro h i hi
    have := (h i hi).2
    rw [operatorIndex_lt E _ (by omega)] at this
    injection this
  · intro h i hi
    rw [operatorIndex_lt E i hi, operatorIndex_lt E _ (by omega : E.m_dims - 1 - i < E.m_dims)]
    refine ⟨rfl, ?_⟩
    simp only [basic_extent.operatorCall, Bool.false_eq_true, if_false]
    rw [h i hi]

theorem mirrored_of_stores {T : IntegralType} (E : basic_extent T) (f : Nat → Int)
    (h1 : ∀ k, k < E.m_dims → E.m_extent k = f k)
    (h2 : ∀ k, k < E.m_dims → E.m_extent_alt k = f (E.m_dims - k - 1)) : E.mirrored := by
  rw [mirrored_iff]
  intro i hi
  rw [h2 i hi, h1 _ (by omega), Nat.sub_right_comm]

theorem mirrored_mk (T : IntegralType) (e a : Store) (n : Nat) (f : Nat → Int)
    (h1 : ∀ k, k < n → e k = f k) (h2 : ∀ k, k < n → a k = f (n - k - 1)) :
    (basic_extent.mk e a n : basic_extent T).mirrored :=
  mirrored_of_stores _ f h1 h2

theorem ofVector_mirrored (T : IntegralType) (L : List Int) (C : basic_extent T)
    (h : basic_extent.ofVector T L = Except.ok C) (hC : C.ndim ≤ ND_MAX_DIMS) :
    C.mirrored := by
  by_cases hlen : L.length > ND_MAX_DIMS
  · rw [ofVector_long T L hlen] at h
    injection h with h
    rw [← h] at hC
    exact absurd hC (Nat.not_succ_le_self _)
  · have hst := storeLoop_spec T (fun i => L.getD i 0)
      (fun i => L.getD (L.length - i - 1) 0) L.length Store.zero Store.zero
    unfold basic_extent.ofVector at h
    rw [if_neg hlen] at h
    by_cases hb : math.anyBelow (basic_extent.storeLoop T (fun i => L.getD i 0)
        (fun i => L.getD (L.length - i - 1) 0) L.length Store.zero Store.zero).1
        L.length 1 = true
    · rw [if_pos hb] at h
      cases h
    · rw [if_neg hb] at h
      injection h with h
      subst h
      exact mirrored_mk T _ _ _ (fun k => T.convert (L.getD k 0))
        (fun k hk => by rw [hst.1 k, if_pos hk])
        (fun k hk => by rw [hst.2 k, if_pos hk])

theorem ofPointer_mirrored (T : IntegralType) (data : List Int) (dims : Nat)
    (h : dims ≤ ND_MAX_DIMS) : (basic_extent.ofPointer T data dims).mirrored := by
  have hst := storeLoop_spec T (fun i => data.getD i 0)
    (fun i => data.getD (dims - i - 1) 0) dims Store.zero Store.zero
  unfold basic_extent.ofPointer
  rw [if_neg (by omega)]
  exact mirrored_mk T _ _ _ (fun k => T.convert (data.getD k 0))
    (fun k hk => by rw [hst.1 k, if_pos hk])
    (fun k hk => by rw [hst.2 k, if_pos hk])

theorem ofPair_mirrored (T : IntegralType) (first : List Int) (second : Nat) :
    (basic_extent.ofPair T first second).mirrored := by
  have hst := storeLoop_spec T (fun i => first.getD i 0)
    (fun i => first.getD (second - i - 1) 0) second Store.zero Store.zero
  unfold basic_extent.ofPair
  exact mirrored_mk T _ _ _ (fun k => T.convert (first.getD k 0))
    (fun k hk => by rw [hst.1 k, if_pos hk])
    (fun k hk => by rw [hst.2 k, if_pos hk])

theorem ofCount_mirrored (T : IntegralType) (n : Nat) (h : n ≤ ND_MAX_DIMS) :
    (basic_extent.ofCount T n).mirrored := by
  have hst := storeLoop_spec T (fun _ => 1) (fun _ => 1) n Store.zero Store.zero
  unfold basic_extent.ofCount
  rw [if_neg (by omega)]
  exact mirrored_mk T _ _ _ (fun _ => T.convert 1)
    (fun k hk => by rw [hst.1 k, if_pos hk])
    (fun k hk => by rw [hst.2 k, if_pos hk])

theorem copy_mirrored {T : IntegralType} (o : basic_extent T)
    (h : o.m_dims ≤ ND_MAX_DIMS) (ho : o.mirrored) : o.copy.mirrored := by
  rw [mirrored_iff] at ho
  unfold basic_extent.copy
  rw [if_neg (by omega)]
  exact mirrored_mk T _ _ _ o.m_extent
    (fun k hk => by simp only [Store.memcpy]; rw [if_pos hk])
    (fun k hk => by
      simp only [Store.memcpy]
      rw [if_pos hk, ho k hk, Nat.sub_right_comm])

theorem compressed_mirrored {T : IntegralType} (E C : basic_extent T)
    (h : E.compressed = Except.ok C) (hC : C.ndim ≤ ND_MAX_DIMS) : C.mirrored := by
  unfold basic_extent.compressed at h
  by_cases hp : math.product E.m_extent E.m_dims = 1
  · rw [if_pos hp] at h
    exact ofVector_mirrored T _ C h hC
  · rw [if_neg hp] at h
    exact ofVector_mirrored T _ C h hC

/-- C20, refuted as stated: the extent {2, 3} after `__py_setitem(0, 5)` has
the forward lengths {5, 3} and the reversed store {3, 2}; its copy has rank
2, `operator()(1, false)` returns 2 on the copy and `elementAt(0)` returns 5,
so the copy does not satisfy the mirror invariant. -/
theorem C20_counterexample :
    ((basic_extent.ofInitializerList nd_int [2, 3]).bind
      (fun E => E.__py_setitem 0 5)).map
      (fun o =>
        (o.copy.ndim, o.copy.operatorCall 1 false, o.copy.operatorIndex (2 - 1 - 1),
          decide o.copy.mirrored))
      = Except.ok (2, 2, Except.ok 5, false) := by
  decide

/-- C20, amended: every extent of rank at most `ND_MAX_DIMS` built without
error by the list (vector or initializer list), count, pointer-and-dims or
pair constructor, or returned by `compressed()`, satisfies the mirror
invariant; the copy constructor hands the invariant on: the copy of an extent
of rank at most `ND_MAX_DIMS` that satisfies it satisfies it too. -/
theorem C20_constructors_mirror_amended (T : IntegralType) (L : List Int) (n : Nat)
    (E : basic_extent T) :
    (∀ C, basic_extent.ofVector T L = Except.ok C → C.ndim ≤ ND_MAX_DIMS → C.mirrored) ∧
    (∀ C, basic_extent.ofInitializerList T L = Except.ok C → C.ndim ≤ ND_MAX_DIMS →
      C.mirrored) ∧
    (n ≤ ND_MAX_DIMS → (basic_extent.ofCount T n).mirrored) ∧
    (n ≤ ND_MAX_DIMS → (basic_extent.ofPointer T L n).mirrored) ∧
    (n ≤ ND_MAX_DIMS → (basic_extent.ofPair T L n).mirrored) ∧
    (E.ndim ≤ ND_MAX_DIMS → E.mirrored → E.copy.mirrored) ∧
    (∀ C, E.compressed = Except.ok C → C.ndim ≤ ND_MAX_DIMS → C.mirrored) :=
  ⟨fun C h hC => ofVector_mirrored T L C h hC,
    fun C h hC => ofVector_mirrored T L C h hC,
    fun h => ofCount_mirrored T n h,
    fun h => ofPointer_mirrored T L n h,
    fun _ => ofPair_mirrored T L n,
    fun h hm => copy_mirrored E h hm,
    fun C h hC => compressed_mirrored E C h hC⟩

/-- C20, amended, at the list {2, 3, 4}, the count 3 and the extent built
from the buffer {2, 3, 4}: the extents built by the count, pointer-and-dims
and pair constructors and the copy satisfy the mirror invariant. -/
theorem C20_constructors_mirror_amended_witness :
    (3 ≤ ND_MAX_DIMS ∧ (basic_extent.ofPointer nd_int [2, 3, 4] 3).ndim ≤ ND_MAX_DIMS ∧
      (basic_extent.ofPointer nd_int [2, 3, 4] 3).mirrored) ∧
    (basic_extent.ofCount nd_int 3).mirrored ∧
    (basic_extent.ofPointer nd_int [2, 3, 4] 3).mirrored ∧
    (basic_extent.ofPair nd_int [2, 3, 4] 3).mirrored ∧
    (basic_extent.ofPointer nd_int [2, 3, 4] 3).copy.mirrored ∧
    (List.range 3).map
      (fun i => (basic_extent.ofPointer nd_int [2, 3, 4] 3).copy.operatorCall i false)
      = [4, 3, 2] :=
  ⟨by decide,
    (C20_constructors_mirror_amended nd_int [2, 3, 4] 3
      (basic_extent.ofPointer nd_int [2, 3, 4] 3)).2.2.1 (by decide),
    (C20_constructors_mirror_amended nd_int [2, 3, 4] 3
      (basic_extent.ofPointer nd_int [2, 3, 4] 3)).2.2.2.1 (by decide),
    (C20_constructors_mirror_amended nd_int [2, 3, 4] 3
      (basic_extent.ofPointer nd_int [2, 3, 4] 3)).2.2.2.2.1 (by decide),
    (C20_constructors_mirror_amended nd_int [2, 3, 4] 3
      (basic_extent.ofPointer nd_int [2, 3, 4] 3)).2.2.2.2.2.1 (by decide) (by decide),
    by decide⟩

end ndarray

namespace ndarray

/-! ## Assignment, validity and the count constructor -/

/-- C21, evaluated on the extent {2, 3} (which satisfies the mirror
invariant), axis 0 and value 5: after `__py_setitem(0, 5)`, and likewise
after the assignment `E[0] = 5` through the mutable `operator[]`, the forward
lengths are {5, 3} and the reversed store still holds {3, 2}, so
`operator()(2 - 1 - 0, false)` is 2 while `elementAt(0)` is 5, and the mirror
invariant no longer holds. -/
theorem C21_assignment_mirror_example :
    (basic_extent.ofInitializerList nd_int [2, 3]).map (fun E => decide E.mirrored)
      = Except.ok true ∧
    ((basic_extent.ofInitializerList nd_int [2, 3]).bind
      (fun E => E.__py_setitem 0 5)).map
      (fun E =>
        (E.lengths, (List.range 2).map (fun i => E.operatorCall i false),
          E.operatorCall (2 - 1 - 0) false, E.operatorIndex 0, decide E.mirrored))
      = Except.ok ([5, 3], [3, 2], 2, Except.ok 5, false) ∧
    ((basic_extent.ofInitializerList nd_int [2, 3]).bind
      (fun E => E.operatorIndexAssign 0 5)).map
      (fun E =>
        (E.lengths, (List.range 2).map (fun i => E.operatorCall i false),
          E.operatorCall (2 - 1 - 0) false, E.operatorIndex 0, decide E.mirrored))
      = Except.ok ([5, 3], [3, 2], 2, Except.ok 5, false) :=
  ⟨by decide, by decide, by decide⟩

/-- C22, evaluated: the pointer-and-dims constructor and the pair
constructor over the buffer {0, 3} build an extent of rank 2 without an
error whose `elementAt(0)` is 0; `__py_setitem(0, 0)` and the assignment
`E[0] = 0` on the extent {2, 3} store the length 0; the list constructor
rejects {0, 3}. -/
theorem C22_length_below_one_example :
    ((basic_extent.ofPointer nd_int [0, 3] 2).ndim,
      (basic_extent.ofPointer nd_int [0, 3] 2).operatorIndex 0) = (2, Except.ok 0) ∧
    ((basic_extent.ofPair nd_int [0, 3] 2).ndim,
      (basic_extent.ofPair nd_int [0, 3] 2).operatorIndex 0) = (2, Except.ok 0) ∧
    ((basic_extent.ofInitializerList nd_int [2, 3]).bind
      (fun E => E.__py_setitem 0 0)).map (fun E => (E.ndim, E.operatorIndex 0))
      = Except.ok (2, Except.ok 0) ∧
    ((basic_extent.ofInitializerList nd_int [2, 3]).bind
      (fun E => E.operatorIndexAssign 0 0)).map (fun E => (E.ndim, E.operatorIndex 0))
      = Except.ok (2, Except.ok 0) ∧
    (basic_extent.ofInitializerList nd_int [0, 3]).map (fun E => E.ndim)
      = Except.error ExtentError.domain_error :=
  ⟨by decide, by decide, by decide, by decide, by decide⟩

/-- C23, refuted as stated: the extent built from 51 lengths is marked
invalid (`ndim() == 51`, `is_valid() == false`), and `elementAt(0)` and
`elementAt(49)` raise nothing and return 0. -/
theorem C23_counterexample :
    (basic_extent.ofVector nd_int (List.replicate 51 1)).map
      (fun E => (E.ndim, E.is_valid, E.operatorIndex 0, E.operatorIndex 49))
      = Except.ok (51, false, Except.ok 0, Except.ok 0) := by
  decide

/-- C23, amended: on the extent marked invalid by construction from more
than `ND_MAX_DIMS` lengths, `elementAt(axis)` fails with the out-of-range
error for every axis above `ND_MAX_DIMS` and for every negative axis of a
64-bit integral type, and for every axis below `ND_MAX_DIMS` it raises
nothing and returns 0, the value the store was initialised with. -/
theorem C23_invalid_extent_access_amended (T : IntegralType) (L : List Int)
    (h : L.length > ND_MAX_DIMS) :
    ∃ E, basic_extent.ofVector T L = Except.ok E ∧ E.ndim = ND_MAX_DIMS + 1 ∧
      E.is_valid = false ∧
      (∀ axis, axis < ND_MAX_DIMS → E.operatorIndex axis = Except.ok 0) ∧
      (∀ axis, axis > ND_MAX_DIMS →
        E.operatorIndex axis
          = Except.error (ExtentError.out_of_range axis (ND_MAX_DIMS + 1))) ∧
      (∀ axis : Int, axis < 0 → -9223372036854775808 ≤ axis →
        E.operatorIndex (axisArgument axis)
          = Except.error
              (ExtentError.out_of_range (axisArgument axis) (ND_MAX_DIMS + 1))) := by
  refine ⟨basic_extent.mk Store.zero Store.zero (ND_MAX_DIMS + 1), ofVector_long T L h,
    rfl, rfl, fun axis ha => ?_, fun axis ha => ?_, fun axis h0 h1 => ?_⟩
  · rw [operatorIndex_lt _ axis (by show axis < ND_MAX_DIMS + 1; omega)]
    rfl
  · exact operatorIndex_ge _ axis (by show ND_MAX_DIMS + 1 ≤ axis; omega)
  · apply operatorIndex_ge
    have := axisArgument_neg axis h0 h1
    show ND_MAX_DIMS + 1 ≤ axisArgument axis
    unfold ND_MAX_DIMS
    omega

/-- C23, amended, at the list of 51 lengths 1. -/
theorem C23_invalid_extent_access_amended_witness :
    (List.replicate 51 (1 : Int)).length > ND_MAX_DIMS ∧
    ∃ E, basic_extent.ofVector nd_int (List.replicate 51 1) = Except.ok E ∧
      E.ndim = ND_MAX_DIMS + 1 ∧ E.is_valid = false ∧
      (∀ axis, axis < ND_MAX_DIMS → E.operatorIndex axis = Except.ok 0) ∧
      (∀ axis, axis > ND_MAX_DIMS →
        E.operatorIndex axis
          = Except.error (ExtentError.out_of_range axis (ND_MAX_DIMS + 1))) ∧
      (∀ axis : Int, axis < 0 → -9223372036854775808 ≤ axis →
        E.operatorIndex (axisArgument axis)
          = Except.error
              (ExtentError.out_of_range (axisArgument axis) (ND_MAX_DIMS + 1))) :=
  ⟨by decide,
    C23_invalid_extent_access_amended nd_int (List.replicate 51 1) (by decide)⟩

/-- C24: `is_valid()` is true if and only if `0 < ndim() < ND_MAX_DIMS`. -/
theorem C24_is_valid {T : IntegralType} (E : basic_extent T) :
    E.is_valid = true ↔ 0 < E.ndim ∧ E.ndim < ND_MAX_DIMS := by
  simp [basic_extent.is_valid, basic_extent.ndim]

/-- C25: the extent constructed from a count `n ≤ ND_MAX_DIMS` has
`ndim() == n` and the length 1 on every axis, in the forward and in the
reversed store; for `n > ND_MAX_DIMS` it is marked invalid with
`ndim() == ND_MAX_DIMS + 1`. -/
theorem C25_count_constructor (T : IntegralType) (n : Nat) :
    (n ≤ ND_MAX_DIMS →
      (basic_extent.ofCount T n).ndim = n ∧
      ∀ i, i < n →
        (basic_extent.ofCount T n).operatorIndex i = Except.ok 1 ∧
        (basic_extent.ofCount T n).operatorCall i true = 1 ∧
        (basic_extent.ofCount T n).operatorCall i false = 1) ∧
    (n > ND_MAX_DIMS →
      (basic_extent.ofCount T n).ndim = ND_MAX_DIMS + 1 ∧
      (basic_extent.ofCount T n).is_valid = false) := by
  have hst := storeLoop_spec T (fun _ => 1) (fun _ => 1) n Store.zero Store.zero
  constructor
  · intro hn
    have hE : basic_extent.ofCount T n
        = basic_extent.mk
            (basic_extent.storeLoop T (fun _ => 1) (fun _ => 1) n Store.zero Store.zero).1
            (basic_extent.storeLoop T (fun _ => 1) (fun _ => 1) n Store.zero Store.zero).2
            n := by
      unfold basic_extent.ofCount
      rw [if_neg (by omega)]
    rw [hE]
    refine ⟨rfl, fun i hi => ?_⟩
    have h1 := hst.1 i
    have h2 := hst.2 i
    rw [if_pos hi, convert_one] at h1 h2
    refine ⟨?_, ?_, ?_⟩
    · rw [operatorIndex_lt _ i hi]
      show Except.ok ((basic_extent.storeLoop T (fun _ => 1) (fun _ => 1) n
        Store.zero Store.zero).1 i) = Except.ok 1
      rw [h1]
    · show (basic_extent.storeLoop T (fun _ => 1) (fun _ => 1) n
        Store.zero Store.zero).1 i = 1
      exact h1
    · show (basic_extent.storeLoop T (fun _ => 1) (fun _ => 1) n
        Store.zero Store.zero).2 i = 1
      exact h2
  · intro hn
    have hE : basic_extent.ofCount T n
        = basic_extent.mk Store.zero Store.zero (ND_MAX_DIMS + 1) := by
      unfold basic_extent.ofCount
      rw [if_pos hn]
    rw [hE]
    exact ⟨rfl, rfl⟩

/-- C25 at the counts 3 and 51. -/
theorem C25_count_constructor_witness :
    (3 ≤ ND_MAX_DIMS ∧ 51 > ND_MAX_DIMS) ∧
    ((basic_extent.ofCount nd_int 3).ndim = 3 ∧
      ∀ i, i < 3 →
        (basic_extent.ofCount nd_int 3).operatorIndex i = Except.ok 1 ∧
        (basic_extent.ofCount nd_int 3).operatorCall i true = 1 ∧
        (basic_extent.ofCount nd_int 3).operatorCall i false = 1) ∧
    ((basic_extent.ofCount nd_int 51).ndim = ND_MAX_DIMS + 1 ∧
      (basic_extent.ofCount nd_int 51).is_valid = false) :=
  ⟨by decide, (C25_count_constructor nd_int 3).1 (by decide),
    (C25_count_constructor nd_int 51).2 (by decide)⟩

/-- C29: from a list of exactly `ND_MAX_DIMS` lengths, each at least 1 and a
value of the element type, the constructor raises no error and stores every
length (`ndim() == ND_MAX_DIMS`, `elementAt(i) == L[i]`), but `is_valid()` is
false; the default-constructed extent of rank 0 has `is_valid()` false
too. -/
theorem C29_full_capacity_not_valid (T : IntegralType) (L : List Int)
    (hn : L.length = ND_MAX_DIMS) (hL : ∀ x, x ∈ L → 1 ≤ x ∧ T.represents x) :
    (∃ E, basic_extent.ofVector T L = Except.ok E ∧ E.ndim = ND_MAX_DIMS ∧
      (∀ i, i < ND_MAX_DIMS → E.operatorIndex i = Except.ok (L.getD i 0)) ∧
      E.is_valid = false) ∧
    ((basic_extent.defaultConstructed T).ndim = 0 ∧
      (basic_extent.defaultConstructed T).is_valid = false) := by
  constructor
  · obtain ⟨E, h1, h2, _, h4, _⟩ := ofVector_lengths T L (by omega) hL
    refine ⟨E, h1, by rw [basic_extent.ndim, h2, hn], fun i hi => ?_, ?_⟩
    · rw [operatorIndex_lt E i (by omega), h4 i (by omega)]
    · simp [basic_extent.is_valid, h2, hn]
  · exact ⟨rfl, rfl⟩

/-- C29 at the list of 50 lengths 2. -/
theorem C29_full_capacity_not_valid_witness :
    (List.replicate 50 (2 : Int)).length = ND_MAX_DIMS ∧
    (∃ E, basic_extent.ofVector nd_int (List.replicate 50 2) = Except.ok E ∧
      E.ndim = ND_MAX_DIMS ∧
      (∀ i, i < ND_MAX_DIMS →
        E.operatorIndex i = Except.ok ((List.replicate 50 (2 : Int)).getD i 0)) ∧
      E.is_valid = false) ∧
    (basic_extent.ofVector nd_int (List.replicate 50 2)).map
      (fun E => (E.ndim, E.operatorIndex 49, E.is_valid))
      = Except.ok (50, Except.ok 2, false) :=
  ⟨by decide,
    (C29_full_capacity_not_valid nd_int (List.replicate 50 2) (by decide)
      (fun x hx => by
        have : x = 2 := (List.mem_replicate.mp hx).2
        subst this
        exact ⟨by decide, by decide⟩)).1,
    by decide⟩

theorem prod_filter_ne_one (l : List Int) :
    (l.filter (fun x => decide (x ≠ 1))).prod = l.prod := by
  induction l with
  | nil => rfl
  | cons a l ih =>
    by_cases h : a ≠ 1
    · rw [List.filter_cons_of_pos (by simpa using h), List.prod_cons, List.prod_cons, ih]
    · have ha : a = 1 := by simpa using h
      rw [List.filter_cons_of_neg (by simpa using h), List.prod_cons, ih, ha, one_mul]

/-- C30: on an extent of rank at most `ND_MAX_DIMS` whose lengths are all at
least 1, `compressed()` returns an extent whose lengths have the same
product, as exact integers, as the lengths of the extent. -/
theorem C30_compressed_product {T : IntegralType} (E : basic_extent T)
    (hE : E.ndim ≤ ND_MAX_DIMS) (hlen : ∀ x, x ∈ E.lengths → 1 ≤ x ∧ T.represents x) :
    ∃ C, E.compressed = Except.ok C ∧ C.lengths.prod = E.lengths.prod := by
  obtain ⟨hone, hmany⟩ := compressed_spec E hE hlen
  by_cases h : E.lengths.prod = 1
  · obtain ⟨C, c1, c2, _⟩ := hone h
    exact ⟨C, c1, by rw [c2, h]; rfl⟩
  · obtain ⟨C, c1, c2, _⟩ := hmany h
    exact ⟨C, c1, by rw [c2, prod_filter_ne_one]⟩

/-- C30 at the extent {1, 5, 1, 4}: the compressed extent {5, 4} has the
product 20 as well. -/
theorem C30_compressed_product_witness :
    (basic_extent.ofPointer nd_int [1, 5, 1, 4] 4).ndim ≤ ND_MAX_DIMS ∧
    (∀ x, x ∈ (basic_extent.ofPointer nd_int [1, 5, 1, 4] 4).lengths →
      1 ≤ x ∧ nd_int.represents x) ∧
    (∃ C, (basic_extent.ofPointer nd_int [1, 5, 1, 4] 4).compressed = Except.ok C ∧
      C.lengths.prod = (basic_extent.ofPointer nd_int [1, 5, 1, 4] 4).lengths.prod) ∧
    (basic_extent.ofPointer nd_int [1, 5, 1, 4] 4).compressed.map
      (fun C => (C.lengths, C.lengths.prod)) = Except.ok ([5, 4], 20) :=
  ⟨by decide, by decide,
    C30_compressed_product (basic_extent.ofPointer nd_int [1, 5, 1, 4] 4)
      (by decide) (by decide),
    by decide⟩

end ndarray

namespace librapid

/-! ## `eval` against `scalar`, and the number of steps of `eval` -/

/-- C26: on a view whose lengths are all at least 1, with any stride and any
offset, `eval()` returns an array whose linear storage holds `scalar(k)` at
every position `0 ≤ k < prod shape`. -/
theorem C26_eval_agrees_with_scalar {α : Type} [Inhabited α] (V : ArrayView α)
    (hs : ∀ x ∈ V.shape, 1 ≤ x) (fuel : Nat) (hfuel : V.shape.prod.toNat ≤ fuel) :
    ∃ res, V.eval fuel = some res ∧ res.shape = V.shape ∧
      ∀ k, 0 ≤ k → k < V.shape.prod → res.storage k = V.scalar k := by
  obtain ⟨res, h1, h2, h3⟩ := eval_spec V hs fuel hfuel
  refine ⟨res, h1, h2, ?_⟩
  intro k hk0 hk1
  by_cases hn : 1 ≤ V.m_shape.length
  · obtain ⟨hl, hd⟩ := scalarCoord_digits V hs hn k hk0
    obtain ⟨hv, hp⟩ := digits_position V.m_shape _ hs k hk0 hk1 hl hd
    have := h3 _ hv
    rw [hp] at this
    rw [this]
    exact (scalar_spec V hs hn k hk0 hk1 _ hv hp).symm
  · have hnil : V.m_shape = [] := List.eq_nil_of_length_eq_zero (by omega)
    have hv : Shape.validCoord V.m_shape [] := by
      rw [hnil]; exact ⟨rfl, fun i hi => absurd hi (by simp)⟩
    have := h3 _ hv
    have hk1' : k < V.m_shape.prod := hk1
    rw [hnil] at hk1'
    have hk : k = 0 := by simp at hk1'; omega
    have hnd : V.ndim = 0 := by simp [ArrayView.ndim, Shape.ndim, hnil]
    have hsc : V.scalar k = V.m_ref.scalar V.m_offset := by
      simp [ArrayView.scalar, hnd]
    rw [hsc, hk]
    simpa [hnil, Shape.rowMajorPosition, Stride.dot] using this

/-- C26 at the example view of shape (2, 2), stride (3, 1) and offset 1. -/
theorem C26_eval_agrees_with_scalar_witness :
    (∀ x ∈ exampleView.shape, 1 ≤ x) ∧ exampleView.shape.prod.toNat ≤ 4 ∧
    (∃ res, exampleView.eval 4 = some res ∧ res.shape = exampleView.shape ∧
      ∀ k, 0 ≤ k → k < exampleView.shape.prod → res.storage k = exampleView.scalar k) ∧
    (exampleView.eval 4).map (fun res => res.toList 4)
      = some ((List.range 4).map (fun k => exampleView.scalar (k : Int))) :=
  ⟨by decide, by decide,
    C26_eval_agrees_with_scalar exampleView (by decide) 4 (by decide), by decide⟩

theorem eq_zeros_of_getD (c : Shape) (n : Nat) (hl : c.length = n)
    (h : ∀ i, i < n → c.getD i 0 = 0) : c = Shape.zeros n := by
  apply List.ext_getElem
  · simp [Shape.zeros, hl]
  · intro i h1 h2
    have := h i (by omega)
    rw [List.getD_eq_getElem?_getD, List.getElem?_eq_getElem h1] at this
    simp only [Option.getD_some] at this
    simp [Shape.zeros, this]

/-- The loop of `eval`, started in a state that satisfies the loop invariant
with `m + 1` destination slots still to write: the body runs `m + 1` times,
the `i`-th of them writes slot `d + i`, the loop is left after the last one
and not before. -/
theorem evalIterate_spec {α : Type} (V : ArrayView α) (hs : ∀ x ∈ V.m_shape, 1 ≤ x) :
    ∀ (m : Nat) (st : ArrayView.EvalState α),
      Shape.validCoord V.m_shape st.coord →
      st.p = Stride.dot st.coord V.m_stride V.m_shape.length →
      st.d = Shape.rowMajorPosition V.m_shape st.coord →
      st.res.shape = V.m_shape →
      (∀ c, Shape.validCoord V.m_shape c →
        Shape.rowMajorPosition V.m_shape c < st.d →
        st.res.storage (Shape.rowMajorPosition V.m_shape c)
          = V.m_ref.scalar (V.m_offset + Stride.dot c V.m_stride V.m_shape.length)) →
      V.m_shape.prod = st.d + ((m : Int) + 1) →
      (∀ i, i ≤ m → (Nat.iterate (ArrayView.evalBody V) i st).d = st.d + (i : Int)) ∧
      (∀ i, 1 ≤ i → i ≤ m → (Nat.iterate (ArrayView.evalBody V) i st).idim < V.ndim) ∧
      ((Nat.iterate (ArrayView.evalBody V) (m + 1) st).idim = V.ndim ∧
        (Nat.iterate (ArrayView.evalBody V) (m + 1) st).d = V.m_shape.prod ∧
        (Nat.iterate (ArrayView.evalBody V) (m + 1) st).p = 0 ∧
        (Nat.iterate (ArrayView.evalBody V) (m + 1) st).coord.length = V.m_shape.length ∧
        ∀ i, i < V.m_shape.length →
          (Nat.iterate (ArrayView.evalBody V) (m + 1) st).coord.getD i 0 = 0) ∧
      (∀ fuel, fuel ≤ m → ArrayView.evalLoop V fuel st = none) ∧
      ArrayView.evalLoop V (m + 1) st
        = some (Nat.iterate (ArrayView.evalBody V) (m + 1) st) := by
  intro m
  induction m with
  | zero =>
    intro st hv hp hd hshape hres hprod
    obtain ⟨_, h2, h3, _, _, _, h7⟩ := evalBody_spec V hs st hv hp hd hshape hres
    have hstop : (ArrayView.evalBody V st).idim = V.ndim ∧
        (∀ i, i < V.m_shape.length → (ArrayView.evalBody V st).coord.getD i 0 = 0) ∧
        (ArrayView.evalBody V st).p = 0 := by
      rcases h7 with ⟨_, a2, a3, _⟩ | ⟨b1, b2, _, b4⟩
      · exfalso
        have := (rowMajorPosition_bound V.m_shape _ a2).2
        rw [a3, hprod] at this
        simp at this
      · exact ⟨b1, b2, b4⟩
    have hit : Nat.iterate (ArrayView.evalBody V) (0 + 1) st = ArrayView.evalBody V st := rfl
    refine ⟨fun i hi => ?_, fun i h1 h2 => absurd h1 (by omega), ?_, fun fuel hf => ?_, ?_⟩
    · have : i = 0 := by omega
      subst this
      simp
    · rw [hit]
      refine ⟨hstop.1, ?_, hstop.2.2, h3, hstop.2.1⟩
      rw [h2, hprod]; simp
    · have : fuel = 0 := by omega
      subst this
      rfl
    · rw [hit]
      simp [ArrayView.evalLoop, hstop.1]
  | succ m ih =>
    intro st hv hp hd hshape hres hprod
    obtain ⟨h1, h2, _, _, _, h6, h7⟩ := evalBody_spec V hs st hv hp hd hshape hres
    have hcont : (ArrayView.evalBody V st).idim < V.ndim ∧
        Shape.validCoord V.m_shape (ArrayView.evalBody V st).coord ∧
        Shape.rowMajorPosition V.m_shape (ArrayView.evalBody V st).coord = st.d + 1 ∧
        (ArrayView.evalBody V st).p
          = Stride.dot (ArrayView.evalBody V st).coord V.m_stride V.m_shape.length := by
      rcases h7 with h | ⟨_, _, b3, _⟩
      · exact h
      · exfalso
        rw [hprod] at b3
        push_cast at b3
        omega
    obtain ⟨c1, c2, c3, c4⟩ := hcont
    obtain ⟨i1, i2, i3, i4, i5⟩ := ih (ArrayView.evalBody V st) c2 c4 (by rw [h2, c3]) h1
      (fun c hc hlt => h6 c hc (by rw [h2] at hlt; exact hlt))
      (by rw [h2, hprod]; push_cast; ring)
    have hit : ∀ i, Nat.iterate (ArrayView.evalBody V) (i + 1) st
        = Nat.iterate (ArrayView.evalBody V) i (ArrayView.evalBody V st) :=
      fun i => Function.iterate_succ_apply _ _ _
    refine ⟨fun i hi => ?_, fun i hi1 hi2 => ?_, ?_, fun fuel hf => ?_, ?_⟩
    · cases i with
      | zero => simp
      | succ j =>
        rw [hit, i1 j (by omega), h2]
        push_cast; ring
    · cases i with
      | zero => omega
      | succ j =>
        rw [hit]
        cases j with
        | zero => exact c1
        | succ l => exact i2 (l + 1) (by omega) (by omega)
    · rw [hit]
      exact i3
    · cases fuel with
      | zero => rfl
      | succ f =>
        have : ArrayView.evalLoop V (f + 1) st
            = ArrayView.evalLoop V f (ArrayView.evalBody V st) := by
          simp [ArrayView.evalLoop, c1]
        rw [this]
        exact i4 f (by omega)
    · have : ArrayView.evalLoop V (m + 1 + 1) st
          = ArrayView.evalLoop V (m + 1) (ArrayView.evalBody V st) := by
        simp [ArrayView.evalLoop, c1]
      rw [this, hit]
      exact i5

end librapid

namespace librapid

theorem evalBody_storage {α : Type} (V : ArrayView α) (st : ArrayView.EvalState α) :
    (ArrayView.evalBody V st).res.storage st.d = V.m_ref.scalar (st.p + V.m_offset) ∧
    ∀ k, k ≠ st.d → (ArrayView.evalBody V st).res.storage k = st.res.storage k := by
  constructor
  · simp [ArrayView.evalBody, ArrayType.storageSet]
  · intro k hk
    simp [ArrayView.evalBody, ArrayType.storageSet, hk]

/-- C27: on a view whose lengths are all at least 1 (rank 0 included, where
`N = 1`), the loop of `eval()` is left after exactly `N = prod shape`
executions of its body and not before; the execution number `j + 1` writes
destination slot `j` and no other slot; after each of the first `N - 1`
executions a `break` has stopped the carry (`idim < ndim`), and after the
last one the carry has run past axis 0 (`idim == ndim`) with every
coordinate 0 again, `p == 0` and `d == N`. -/
theorem C27_eval_terminates {α : Type} [Inhabited α] (V : ArrayView α)
    (hs : ∀ x ∈ V.shape, 1 ≤ x) :
    1 ≤ V.shape.prod.toNat ∧ (V.ndim = 0 → V.shape.prod.toNat = 1) ∧
    V.eval V.shape.prod.toNat = some (V.evalStateAfter V.shape.prod.toNat).res ∧
    (∀ fuel, fuel < V.shape.prod.toNat → V.eval fuel = none) ∧
    (∀ j, j < V.shape.prod.toNat →
      (V.evalStateAfter j).d = (j : Int) ∧
      (V.evalStateAfter (j + 1)).res.storage (j : Int)
        = V.m_ref.scalar ((V.evalStateAfter j).p + V.offset) ∧
      ∀ k, k ≠ (j : Int) →
        (V.evalStateAfter (j + 1)).res.storage k = (V.evalStateAfter j).res.storage k) ∧
    (∀ j, 1 ≤ j → j < V.shape.prod.toNat → (V.evalStateAfter j).idim < V.ndim) ∧
    ((V.evalStateAfter V.shape.prod.toNat).idim = V.ndim ∧
      (V.evalStateAfter V.shape.prod.toNat).coord = Shape.zeros V.ndim ∧
      (V.evalStateAfter V.shape.prod.toNat).p = 0 ∧
      (V.evalStateAfter V.shape.prod.toNat).d = (V.shape.prod.toNat : Int)) := by
  have hpos : 0 < V.m_shape.prod := prod_pos_of_pos V.m_shape hs
  have hN : ((V.m_shape.prod.toNat : Nat) : Int) = V.m_shape.prod :=
    Int.toNat_of_nonneg (le_of_lt hpos)
  have hN1 : 1 ≤ V.m_shape.prod.toNat := by omega
  obtain ⟨m, hm⟩ : ∃ m, V.m_shape.prod.toNat = m + 1 := ⟨V.m_shape.prod.toNat - 1, by omega⟩
  obtain ⟨i1, i2, i3, i4, i5⟩ := evalIterate_spec V hs m (ArrayView.evalInit V)
    (by simpa [ArrayView.evalInit, ArrayView.ndim, Shape.ndim]
      using validCoord_zeros V.m_shape hs)
    (by simp [ArrayView.evalInit, ArrayView.ndim, Shape.ndim, dot_zeros])
    (by simp [ArrayView.evalInit, ArrayView.ndim, Shape.ndim, rowMajorPosition_zeros])
    (by simp [ArrayView.evalInit, ArrayType.ofShape])
    (by
      intro c hc hlt
      have := (rowMajorPosition_bound V.m_shape c hc).1
      simp [ArrayView.evalInit] at hlt
      omega)
    (by
      simp only [ArrayView.evalInit]
      rw [← hN, hm]; push_cast; ring)
  have hd0 : (ArrayView.evalInit V).d = 0 := rfl
  simp only [ArrayView.shape, ArrayView.offset]
  rw [hm]
  refine ⟨by omega, ?_, ?_, ?_, ?_, ?_, ?_⟩
  · intro h0
    have hnil : V.m_shape = [] := List.eq_nil_of_length_eq_zero h0
    have : V.m_shape.prod.toNat = 1 := by rw [hnil]; rfl
    omega
  · simp only [ArrayView.eval, i5]
    rfl
  · intro fuel hf
    simp only [ArrayView.eval, i4 fuel (by omega)]
    rfl
  · intro j hj
    have hdj : (V.evalStateAfter j).d = (j : Int) := by
      have := i1 j (by omega)
      rw [hd0, zero_add] at this
      exact this
    have hstep : V.evalStateAfter (j + 1) = ArrayView.evalBody V (V.evalStateAfter j) :=
      Function.iterate_succ_apply' _ _ _
    obtain ⟨w1, w2⟩ := evalBody_storage V (V.evalStateAfter j)
    rw [hdj] at w1 w2
    exact ⟨hdj, by rw [hstep]; exact w1, fun k hk => by rw [hstep]; exact w2 k hk⟩
  · intro j h1 h2
    exact i2 j h1 (by omega)
  · obtain ⟨f1, f2, f3, f4, f5⟩ := i3
    refine ⟨f1, eq_zeros_of_getD _ _ f4 f5, f3, ?_⟩
    show (Nat.iterate (ArrayView.evalBody V) (m + 1) (ArrayView.evalInit V)).d = _
    rw [f2, ← hN, hm]

/-- C27 at the example view of shape (2, 2): four copy steps, to the slots 0,
1, 2, 3, and the loop is left with `idim == 2`, coordinates (0, 0) and
`p == 0`. -/
theorem C27_eval_terminates_witness :
    (∀ x ∈ exampleView.shape, 1 ≤ x) ∧ exampleView.shape.prod.toNat = 4 ∧
    (exampleView.eval exampleView.shape.prod.toNat
        = some (exampleView.evalStateAfter exampleView.shape.prod.toNat).res ∧
      (∀ fuel, fuel < exampleView.shape.prod.toNat → exampleView.eval fuel = none)) ∧
    (List.range 4).map (fun j => (exampleView.evalStateAfter j).d) = [0, 1, 2, 3] ∧
    (List.range 5).map (fun j => (exampleView.evalStateAfter j).idim) = [0, 0, 1, 0, 2] ∧
    ((exampleView.evalStateAfter 4).coord, (exampleView.evalStateAfter 4).p,
      (exampleView.evalStateAfter 4).d) = ([0, 0], 0, 4) :=
  ⟨by decide, by decide,
    ⟨(C27_eval_terminates exampleView (by decide)).2.2.1,
      (C27_eval_terminates exampleView (by decide)).2.2.2.1⟩,
    by decide, by decide, by decide⟩

/-! ## Chained indexing -/

theorem operatorIndexChain_spec {α : Type} :
    ∀ (idx : List Int) (V : ArrayView α), idx.length ≤ V.m_shape.length →
      (∀ j, j < idx.length → 0 ≤ idx.getD j 0 ∧ idx.getD j 0 < V.m_shape.getD j 0) →
      ∃ W, V.operatorIndexChain idx = Except.ok W ∧ W.m_ref = V.m_ref ∧
        W.m_shape = V.m_shape.drop idx.length ∧
        W.m_offset = V.m_offset
          + ∑ j ∈ Finset.range idx.length, idx.getD j 0 * (V.m_shape.drop (j + 1)).prod := by
  intro idx
  induction idx with
  | nil =>
    intro V _ _
    exact ⟨V, rfl, rfl, by simp, by simp⟩
  | cons i rest ih =>
    intro V hlen hidx
    have h0 := hidx 0 (by simp)
    simp only [List.getD_cons_zero] at h0
    have hok := operatorIndex_ok V i h0.1 h0.2
    have hV1 : 1 ≤ V.ndim := by
      have : (i :: rest).length ≤ V.m_shape.length := hlen
      simp only [List.length_cons] at this
      show 1 ≤ V.m_shape.length
      omega
    have hsh : (V.derived i).m_shape = V.m_shape.drop 1 := derived_shape V i
    have hoff := derived_offset V i hV1
    obtain ⟨W, w1, w2, w3, w4⟩ := ih (V.derived i)
      (by
        rw [hsh, List.length_drop]
        simp only [List.length_cons] at hlen
        omega)
      (fun j hj => by
        have := hidx (j + 1) (by simpa using hj)
        simp only [List.getD_cons_succ] at this
        rw [hsh]
        simpa [List.getD_eq_getElem?_getD, List.getElem?_drop, add_comm] using this)
    refine ⟨W, ?_, w2, ?_, ?_⟩
    · simp only [ArrayView.operatorIndexChain, hok]
      exact w1
    · rw [w3, hsh, List.drop_drop, List.length_cons]
      congr 1
      omega
    · rw [w4, hoff, hsh, List.length_cons, Finset.sum_range_succ']
      simp only [List.getD_cons_succ, List.getD_cons_zero, List.drop_drop]
      have : ∀ j, 1 + (j + 1) = j + 1 + 1 := fun j => by omega
      simp only [this, zero_add]
      ring

/-- C28: for an array `A` of shape `(d_0, ..., d_{n-1})` with all lengths at
least 1 and indices `i_0, ..., i_{k-1}` with `k ≤ n` and `0 ≤ i_j < d_j`,
the view `ArrayView(A)[i_0]...[i_{k-1}]` exists, has the shape
`(d_k, ..., d_{n-1})` and the offset `sum_{j<k} i_j * prod_{m>j} d_m`; when
`k == n` it has rank 0, its offset is the row-major position of the
multi-index `(i_0, ..., i_{n-1})`, and `scalar(0)` returns the element of `A`
at that position. -/
theorem C28_chained_indexing {α : Type} (A : ArrayType α) (ds : Shape) (idx : List Int)
    (hA : A.shape = ds) (_hds : ∀ x ∈ ds, 1 ≤ x) (hk : idx.length ≤ ds.length)
    (hidx : ∀ j, j < idx.length → 0 ≤ idx.getD j 0 ∧ idx.getD j 0 < ds.getD j 0) :
    ∃ W, (ArrayView.ofArray A).operatorIndexChain idx = Except.ok W ∧
      W.shape = ds.drop idx.length ∧
      W.offset = ∑ j ∈ Finset.range idx.length, idx.getD j 0 * (ds.drop (j + 1)).prod ∧
      (idx.length = ds.length →
        W.ndim = 0 ∧ W.offset = Shape.rowMajorPosition ds idx ∧
        W.scalar 0 = A.scalar (Shape.rowMajorPosition ds idx)) := by
  have hshape : (ArrayView.ofArray A).m_shape = ds := hA
  obtain ⟨W, w1, w2, w3, w4⟩ := operatorIndexChain_spec idx (ArrayView.ofArray A)
    (by rw [hshape]; exact hk) (by rw [hshape]; exact hidx)
  rw [hshape] at w3 w4
  have hoff : W.m_offset
      = ∑ j ∈ Finset.range idx.length, idx.getD j 0 * (ds.drop (j + 1)).prod := by
    rw [w4]
    simp [ArrayView.ofArray]
  refine ⟨W, w1, w3, hoff, fun hkn => ?_⟩
  have hnd : W.ndim = 0 := by
    simp [ArrayView.ndim, Shape.ndim, w3, hkn]
  have hpos : W.m_offset = Shape.rowMajorPosition ds idx := by
    rw [hoff, hkn]; rfl
  refine ⟨hnd, hpos, ?_⟩
  have hsc : W.scalar 0 = W.m_ref.scalar W.m_offset := by
    simp [ArrayView.scalar, hnd]
  rw [hsc, w2, hpos]
  rfl

/-- C28 at the 2 x 3 x 4 array holding 0, ..., 23 and the indices 1, 2, 3:
the view has rank 0, offset 1*12 + 2*4 + 3 = 23 and `scalar(0)` is 23; after
the indices 1, 2 the view has shape (4) and offset 20. -/
theorem C28_chained_indexing_witness :
    (exampleCube.shape = [2, 3, 4] ∧ (∀ x ∈ ([2, 3, 4] : Shape), 1 ≤ x) ∧
      ([1, 2, 3] : List Int).length ≤ ([2, 3, 4] : Shape).length ∧
      ∀ j, j < ([1, 2, 3] : List Int).length →
        0 ≤ ([1, 2, 3] : List Int).getD j 0 ∧
          ([1, 2, 3] : List Int).getD j 0 < ([2, 3, 4] : Shape).getD j 0) ∧
    (∃ W, (ArrayView.ofArray exampleCube).operatorIndexChain [1, 2, 3] = Except.ok W ∧
      W.shape = ([2, 3, 4] : Shape).drop ([1, 2, 3] : List Int).length ∧
      W.offset = ∑ j ∈ Finset.range ([1, 2, 3] : List Int).length,
        ([1, 2, 3] : List Int).getD j 0 * (([2, 3, 4] : Shape).drop (j + 1)).prod ∧
      (([1, 2, 3] : List Int).length = ([2, 3, 4] : Shape).length →
        W.ndim = 0 ∧ W.offset = Shape.rowMajorPosition [2, 3, 4] [1, 2, 3] ∧
        W.scalar 0 = exampleCube.scalar (Shape.rowMajorPosition [2, 3, 4] [1, 2, 3]))) ∧
    (match (ArrayView.ofArray exampleCube).operatorIndexChain [1, 2, 3] with
      | Except.ok W => some (W.shape, W.offset, W.scalar 0)
      | Except.error _ => none) = some ([], 23, 23) ∧
    (match (ArrayView.ofArray exampleCube).operatorIndexChain [1, 2] with
      | Except.ok W => some (W.shape, W.offset)
      | Except.error _ => none) = some ([4], 20) :=
  ⟨⟨rfl, by decide, by decide, by decide⟩,
    C28_chained_indexing exampleCube [2, 3, 4] [1, 2, 3] rfl (by decide) (by decide)
      (by decide),
    by decide, by decide⟩

end librapid
